import Mathlib

/-!
Verification of the word-analysis document parsing pipeline.

This file gives a shallow embedding of the parsing/rendering core of the
repository (the `DocxParser` heading-mode state machine, the
`WordNumberingExtractor` counter/template machinery, the list-item
formatter, the image association logic, the table extractor and the
`RichTextRenderer`) and proves the testable properties stated in the
design document about those definitions.

Python integers are modelled as `Nat`/`Int`, Python strings as `String`,
Python dicts as association lists (only lookup/update/delete semantics are
used), and Python sets as lists used up to membership.
-/

namespace WordAnalysis

/-! ## String utilities

`natStr` embeds Python's `str(n)` for a non-negative integer (decimal
notation); `intStr` embeds `str(i)` for a possibly negative integer.
`containsSub` embeds Python's `needle in haystack` substring test.
-/

/-- Decimal digit expansion with explicit fuel (structural, so that the
kernel can evaluate it inside `decide`/`rfl` proofs). -/
def natDigitsF : Nat → Nat → List Nat
  | 0, _ => []
  | fuel + 1, n => if n < 10 then [n] else natDigitsF fuel (n / 10) ++ [n % 10]

/-- Decimal digits of `n`, most significant first (each `< 10`). -/
def natDigits (n : Nat) : List Nat := natDigitsF (n + 1) n

theorem natDigitsF_congr : ∀ (fuel fuel' n : Nat), n < fuel → n < fuel' →
    natDigitsF fuel n = natDigitsF fuel' n := by
  intro fuel
  induction fuel with
  | zero => intro fuel' n h; omega
  | succ f ih =>
    intro fuel' n h h'
    cases fuel' with
    | zero => omega
    | succ f' =>
      simp only [natDigitsF]
      by_cases h10 : n < 10
      · simp [h10]
      · simp only [h10, if_false]
        have hd : n / 10 < n := Nat.div_lt_self (by omega) (by omega)
        rw [ih f' (n / 10) (by omega) (by omega)]

theorem natDigits_def (n : Nat) :
    natDigits n = if n < 10 then [n] else natDigits (n / 10) ++ [n % 10] := by
  show natDigitsF (n + 1) n = _
  rw [natDigitsF]
  by_cases h10 : n < 10
  · simp [h10]
  · simp only [h10, if_false]
    have hd : n / 10 < n := Nat.div_lt_self (by omega) (by omega)
    rw [natDigitsF_congr n (n / 10 + 1) (n / 10) (by omega) (by omega)]
    rfl

/-- Value recovered from a digit list. -/
def digitsVal (l : List Nat) : Nat := l.foldl (fun a d => 10 * a + d) 0

theorem digitsVal_append_single (l : List Nat) (d : Nat) :
    digitsVal (l ++ [d]) = 10 * digitsVal l + d := by
  simp [digitsVal, List.foldl_append]

theorem digitsVal_natDigits (n : Nat) : digitsVal (natDigits n) = n := by
  induction n using Nat.strong_induction_on with
  | _ n ih =>
    rw [natDigits_def]
    by_cases h : n < 10
    · simp [h, digitsVal]
    · have hpos : 0 < n := by omega
      have hlt : n / 10 < n := Nat.div_lt_self hpos (by omega)
      simp only [h, if_false, digitsVal_append_single, ih (n / 10) hlt]
      omega

theorem natDigits_injective : Function.Injective natDigits := by
  intro m n h
  have := congrArg digitsVal h
  rwa [digitsVal_natDigits, digitsVal_natDigits] at this

/-- The character for a single decimal digit. -/
def digitCh (d : Nat) : Char := Char.ofNat (48 + d)

theorem digitCh_toNat (d : Nat) (hd : d < 10) : (digitCh d).toNat = 48 + d := by
  interval_cases d <;> decide

theorem digitCh_inj (d e : Nat) (hd : d < 10) (he : e < 10)
    (h : digitCh d = digitCh e) : d = e := by
  have := congrArg Char.toNat h
  rw [digitCh_toNat d hd, digitCh_toNat e he] at this
  omega

theorem natDigits_lt_ten (n : Nat) : ∀ d ∈ natDigits n, d < 10 := by
  induction n using Nat.strong_induction_on with
  | _ n ih =>
    rw [natDigits_def]
    by_cases h : n < 10
    · simp [h]
    · have hpos : 0 < n := by omega
      have hlt : n / 10 < n := Nat.div_lt_self hpos (by omega)
      simp only [h, if_false]
      intro d hmem
      rcases List.mem_append.mp hmem with h1 | h2
      · exact ih (n / 10) hlt d h1
      · simp at h2
        omega

/-- Embedding of Python `str(n)` on a natural number: decimal notation. -/
def natStr (n : Nat) : String := String.mk ((natDigits n).map digitCh)

theorem digit_map_inj : ∀ (l₁ l₂ : List Nat), (∀ d ∈ l₁, d < 10) → (∀ d ∈ l₂, d < 10) →
    l₁.map digitCh = l₂.map digitCh → l₁ = l₂ := by
  intro l₁
  induction l₁ with
  | nil => intro l₂ _ _ h; cases l₂ <;> simp_all
  | cons a t ih =>
    intro l₂ h1 h2 h
    cases l₂ with
    | nil => simp_all
    | cons b t₂ =>
      simp only [List.map_cons, List.cons.injEq] at h
      have ha : a = b := digitCh_inj a b (h1 a (by simp)) (h2 b (by simp)) h.1
      have ht : t = t₂ := ih t₂ (fun d hd => h1 d (by simp [hd])) (fun d hd => h2 d (by simp [hd])) h.2
      rw [ha, ht]

theorem natStr_injective : Function.Injective natStr := by
  intro m n h
  have hdata : ((natDigits m).map digitCh) = ((natDigits n).map digitCh) := by
    have := congrArg String.data h
    simpa [natStr] using this
  exact natDigits_injective
    (digit_map_inj _ _ (natDigits_lt_ten m) (natDigits_lt_ten n) hdata)

/-- Embedding of Python `str(i)` on an integer. -/
def intStr (i : Int) : String :=
  if i < 0 then "-" ++ natStr i.natAbs else natStr i.natAbs

/-- Embedding of Python's substring test `needle in haystack` (on char lists). -/
def containsSub : List Char → List Char → Bool
  | [], needle => needle.isEmpty
  | c :: rest, needle => needle.isPrefixOf (c :: rest) || containsSub rest needle

/-- Embedding of Python's substring test on strings. -/
def strContains (hay needle : String) : Bool := containsSub hay.data needle.data

/-- Embedding of Python `sep.join(parts)`. -/
def joinSep (sep : String) : List String → String
  | [] => ""
  | [x] => x
  | x :: y :: xs => x ++ sep ++ joinSep sep (y :: xs)

/-- Embedding of Python `s * n` (string repetition). -/
def strRepeat (s : String) (n : Nat) : String := String.join (List.replicate n s)

/-- Embedding of Python `s.strip()`: drop whitespace from both ends. -/
def pyStrip (s : String) : String :=
  String.mk (((s.data.dropWhile Char.isWhitespace).reverse.dropWhile
    Char.isWhitespace).reverse)

/-- Embedding of Python `s.lower()`. -/
def pyLower (s : String) : String := String.mk (s.data.map Char.toLower)

/-- Embedding of Python `s.split("/")[-1]`: the part after the last slash. -/
def lastComp (s : String) : String :=
  String.mk ((s.data.reverse.takeWhile (fun c => c ≠ '/')).reverse)

/-! ## Duplicate-path disambiguation

Embeds the `while final_path in self._used_paths` loop of
`WordNumberingExtractor.get_number_info` (numbering.py, lines 199-207):
starting from a base path, as long as the candidate is already used, try
`f"{number_path}.{suffix}"` with suffix = 1, 2, 3, ...  The Python loop
terminates because only finitely many paths are used; the embedding uses
fuel `used.length + 1`, which the pigeonhole argument below shows is
always sufficient.
-/

def uniquifyAux (base : String) (used : List String) : Nat → Nat → String
  | 0, k => base ++ "." ++ natStr k
  | fuel + 1, k =>
    if (base ++ "." ++ natStr k) ∈ used then uniquifyAux base used fuel (k + 1)
    else base ++ "." ++ natStr k

/-- The deduplication loop of `get_number_info`: returns `base` if unused,
otherwise the first `base.k` (k = 1, 2, ...) not yet used. -/
def uniquify (base : String) (used : List String) : String :=
  if base ∈ used then uniquifyAux base used (used.length + 1) 1 else base

theorem suffixCand_inj (base : String) :
    Function.Injective (fun k => base ++ "." ++ natStr k) := by
  intro j j' h
  simp only at h
  have hdata := congrArg String.data h
  simp only [String.data_append] at hdata
  have h2 := List.append_cancel_left hdata
  exact natStr_injective (String.ext h2)

theorem uniquifyAux_fresh (base : String) (used : List String) :
    ∀ fuel k, (∃ j, k ≤ j ∧ j < k + fuel ∧ (base ++ "." ++ natStr j) ∉ used) →
    uniquifyAux base used fuel k ∉ used := by
  intro fuel
  induction fuel with
  | zero => intro k ⟨j, hj1, hj2, _⟩; omega
  | succ f ih =>
    intro k ⟨j, hj1, hj2, hj3⟩
    rw [uniquifyAux]
    by_cases hmem : (base ++ "." ++ natStr k) ∈ used
    · simp only [hmem, if_true]
      apply ih (k + 1)
      refine ⟨j, ?_, by omega, hj3⟩
      rcases Nat.eq_or_lt_of_le hj1 with heq | hlt
      · exact absurd (heq ▸ hj3) (by simpa using hmem)
      · omega
    · simpa [hmem] using hmem

theorem exists_fresh_suffix (base : String) (used : List String) :
    ∃ j, 1 ≤ j ∧ j < 1 + (used.length + 1) ∧ (base ++ "." ++ natStr j) ∉ used := by
  by_contra hall
  push_neg at hall
  have hsub : ∀ j ∈ Finset.Icc 1 (used.length + 1),
      (base ++ "." ++ natStr j) ∈ used.toFinset := by
    intro j hj
    simp only [Finset.mem_Icc] at hj
    rw [List.mem_toFinset]
    exact hall j hj.1 (by omega)
  have hinj : Set.InjOn (fun k => base ++ "." ++ natStr k)
      ↑(Finset.Icc 1 (used.length + 1)) := fun a _ b _ h => suffixCand_inj base h
  have hcard := Finset.card_le_card_of_injOn _ hsub hinj
  have h1 : (Finset.Icc 1 (used.length + 1)).card = used.length + 1 := by
    rw [Nat.card_Icc]; omega
  have h2 : used.toFinset.card ≤ used.length := List.toFinset_card_le used
  omega

/-- The path chosen by the deduplication loop is never an already-used path. -/
theorem uniquify_not_mem (base : String) (used : List String) :
    uniquify base used ∉ used := by
  rw [uniquify]
  by_cases hmem : base ∈ used
  · simp only [hmem, if_true]
    apply uniquifyAux_fresh
    exact exists_fresh_suffix base used
  · simpa [hmem] using hmem

/-! ## Numbering definitions (numbering.py)

`LevelDef` and the two lookup maps of `WordNumberingExtractor`
(`_abstract_nums : abstract_id -> (ilvl -> LevelDef)` and
`_num_to_abstract : num_id -> abstract_id`), modelled as association
lists. A document whose package has no numbering sub-part leaves both
maps empty (`_parse_numbering_part` returns early).
-/

/-- Numbering level definition from Word's numbering.xml. -/
structure LevelDef where
  ilvl : Nat
  start : Int := 1
  fmt : String := "decimal"
  lvlText : String := "%1."
deriving DecidableEq

structure NumberingDefs where
  abstractNums : List (Nat × List (Nat × LevelDef))
  numToAbstract : List (Nat × Nat)
deriving DecidableEq

/-- The state of the extractor for a document without a numbering sub-part. -/
def NumberingDefs.empty : NumberingDefs := ⟨[], []⟩

/-- `WordNumberingExtractor._get_level_def`. -/
def getLevelDef (defs : NumberingDefs) (numId ilvl : Nat) : Option LevelDef :=
  match defs.numToAbstract.lookup numId with
  | none => none
  | some aid =>
    match defs.abstractNums.lookup aid with
    | none => none
    | some lvls => lvls.lookup ilvl

/-- Python dict assignment `m[k] = v` on an association list: the new
binding shadows any earlier one. The dicts modelled this way are only
ever read through lookup/membership/per-key deletion (never iterated),
for which this is observationally the dict semantics. -/
def setA {κ α : Type} [BEq κ] (m : List (κ × α)) (k : κ) (v : α) : List (κ × α) :=
  (k, v) :: m

/-! ### Template substitution (`_generate_from_template`) -/

/-- Fueled scanner for the `%N` tokens of a template. -/
def scanPctF : Nat → List Char → List (List Char)
  | 0, _ => []
  | _, [] => []
  | fuel + 1, c :: rest =>
    if c = '%' then
      let ds := rest.takeWhile Char.isDigit
      if ds.isEmpty then scanPctF fuel rest
      else ('%' :: ds) :: scanPctF fuel (rest.drop ds.length)
    else scanPctF fuel rest

/-- The `%N` tokens of a template, in left-to-right order
(the `re.finditer(r"%(\d+)", ...)` matches). -/
def scanPct (l : List Char) : List (List Char) := scanPctF l.length l

/-- Numeric value of a digit string (Python `int` on the `%N` group). -/
def digitsToNat (ds : List Char) : Nat :=
  ds.foldl (fun a c => 10 * a + (c.toNat - 48)) 0

/-- Python `s.replace(pat, repl, 1)`: replace the first occurrence only. -/
def replFirst : List Char → List Char → List Char → List Char
  | [], _, _ => []
  | h :: t, pat, repl =>
    if pat.isPrefixOf (h :: t) then repl ++ (h :: t).drop pat.length
    else h :: replFirst t pat repl

/-- Python list indexing `l[idx]` (negative indices count from the end). -/
def pyGet (l : List Int) (idx : Int) : Option Int :=
  if idx < 0 then
    if (l.length : Int) + idx < 0 then none
    else l.get? ((l.length : Int) + idx).toNat
  else l.get? idx.toNat

/-- One substitution step of `_generate_from_template`:
`idx = int(match.group(1)) - 1; if idx < len(counters): replace first`. -/
def applyTok (counters : List Int) (res : List Char) (tok : List Char) : List Char :=
  let idx : Int := (digitsToNat (tok.drop 1) : Int) - 1
  if idx < (counters.length : Int) then
    match pyGet counters idx with
    | some v => replFirst res tok (intStr v).data
    | none => res
  else res

/-- `WordNumberingExtractor._generate_from_template`: substitute the `%N`
placeholders positionally, then strip trailing dots (`rstrip(".")`). -/
def generateFromTemplate (template : String) (counters : List Int) : String :=
  let toks := scanPct template.data
  let res := toks.foldl (applyTok counters) template.data
  String.mk ((res.reverse.dropWhile (fun c => c == '.')).reverse)

/-! ### The extractor state machine (`get_number_info`) -/

/-- Information about a paragraph number (`NumberInfo` in numbering.py). -/
structure NumberInfo where
  num_id : Nat
  ilvl : Nat
  number_path : String
deriving DecidableEq

/-- Mutable state of `WordNumberingExtractor`: per-list per-level counters
and the registry of used paths. -/
structure ExtractorState where
  counters : List (Nat × List (Nat × Int))
  usedPaths : List String
deriving DecidableEq

def ExtractorState.init : ExtractorState := ⟨[], []⟩

/-- `WordNumberingExtractor.get_number_info`, as a state transformer.
The input is the paragraph's numbering reference: `none` when the
paragraph has no `pPr`/`numPr` (the function returns `None`), otherwise
the optional `ilvl` and `numId` values (absent values default to 0). -/
def getNumberInfo (defs : NumberingDefs) (st : ExtractorState)
    (numPr : Option (Option Nat × Option Nat)) :
    Option NumberInfo × ExtractorState :=
  match numPr with
  | none => (none, st)
  | some (ilvlOpt, numIdOpt) =>
    let ilvl := ilvlOpt.getD 0
    let numId := numIdOpt.getD 0
    -- initialize this numId's counters, then drop levels in range(ilvl+1, 9)
    let cnt0 := (st.counters.lookup numId).getD []
    let cnt1 := cnt0.filter (fun kv => !(decide (ilvl < kv.1) && decide (kv.1 < 9)))
    let (cnt2, basePath) :=
      match getLevelDef defs numId ilvl with
      | none =>
        -- fallback to simple decimal numbering
        let cnt2 := setA cnt1 ilvl ((cnt1.lookup ilvl).getD 0 + 1)
        let parts := (List.range (ilvl + 1)).filterMap
          (fun lvl => (cnt2.lookup lvl).map intStr)
        (cnt2, joinSep "." parts)
      | some ld =>
        let cnt2 := setA cnt1 ilvl ((cnt1.lookup ilvl).getD (ld.start - 1) + 1)
        let cs := (List.range (ilvl + 1)).filterMap (fun lvl => cnt2.lookup lvl)
        (cnt2, generateFromTemplate ld.lvlText cs)
    let finalPath := uniquify basePath st.usedPaths
    (some ⟨numId, ilvl, finalPath⟩,
     ⟨setA st.counters numId cnt2, finalPath :: st.usedPaths⟩)

/-- Run the extractor over the numbering references of a body paragraph
stream, collecting the emitted `number_path`s (the paths of the sections a
native-numbering-mode parse produces, in document order). -/
def runExtractor (defs : NumberingDefs) (st : ExtractorState) :
    List (Option (Option Nat × Option Nat)) → List String
  | [] => []
  | p :: ps =>
    match (getNumberInfo defs st p).1 with
    | some ni => ni.number_path :: runExtractor defs (getNumberInfo defs st p).2 ps
    | none => runExtractor defs (getNumberInfo defs st p).2 ps

theorem getNumberInfo_some_spec (defs : NumberingDefs) (st : ExtractorState)
    (pr : Option (Option Nat × Option Nat)) (ni : NumberInfo) (st' : ExtractorState)
    (h : getNumberInfo defs st pr = (some ni, st')) :
    ni.number_path ∉ st.usedPaths ∧ st'.usedPaths = ni.number_path :: st.usedPaths := by
  cases pr with
  | none => simp [getNumberInfo] at h
  | some ab =>
    obtain ⟨a, b⟩ := ab
    simp only [getNumberInfo] at h
    split at h <;>
    · simp only [Prod.mk.injEq, Option.some.injEq] at h
      obtain ⟨hni, hst⟩ := h
      subst hni
      subst hst
      exact ⟨uniquify_not_mem _ _, rfl⟩

theorem getNumberInfo_none_spec (defs : NumberingDefs) (st : ExtractorState)
    (pr : Option (Option Nat × Option Nat)) (st' : ExtractorState)
    (h : getNumberInfo defs st pr = (none, st')) : st' = st := by
  cases pr with
  | none => simp [getNumberInfo] at h; exact h.symm
  | some ab =>
    obtain ⟨a, b⟩ := ab
    simp only [getNumberInfo] at h
    split at h <;> simp at h

theorem runExtractor_fresh (defs : NumberingDefs) :
    ∀ (inputs : List (Option (Option Nat × Option Nat))) (st : ExtractorState),
    (runExtractor defs st inputs).Nodup ∧
    ∀ q ∈ runExtractor defs st inputs, q ∉ st.usedPaths := by
  intro inputs
  induction inputs with
  | nil => intro st; simp [runExtractor]
  | cons p ps ih =>
    intro st
    rcases hr : getNumberInfo defs st p with ⟨info, st2⟩
    cases info with
    | none =>
      have hst : st2 = st := getNumberInfo_none_spec defs st p st2 hr
      have := ih st2
      simp only [runExtractor, hr]
      subst hst
      exact this
    | some ni =>
      obtain ⟨hfresh, hused⟩ := getNumberInfo_some_spec defs st p ni st2 hr
      obtain ⟨hnd, hrest⟩ := ih st2
      simp only [runExtractor, hr]
      constructor
      · refine List.nodup_cons.mpr ⟨?_, hnd⟩
        intro hmem
        exact (hrest _ hmem) (by rw [hused]; exact List.mem_cons_self _ _)
      · intro q hq
        rcases List.mem_cons.mp hq with hq | hq
        · rw [hq]; exact hfresh
        · intro hqin
          exact (hrest q hq) (by rw [hused]; exact List.mem_cons_of_mem _ hqin)

/-! ## Renderer data model (renderer.py)

JSON values are modelled by the inductive `JsonV`; the Python dicts built
by `RichTextRenderer` and `table_to_json` become `JsonV.obj` values, and
`dict.get` becomes `jget`.
-/

inductive JsonV where
  | null
  | str (s : String)
  | num (n : Int)
  | arr (elems : List JsonV)
  | obj (fields : List (String × JsonV))

/-- `d.get(k)` on a JSON object (returns `none` on non-objects/missing keys). -/
def jget (v : JsonV) (k : String) : Option JsonV :=
  match v with
  | .obj fields => fields.lookup k
  | _ => none

/-- Rendered image data (`RenderedImage`). -/
structure RenderedImage where
  filename : String
  mime_type : String
  base64_data : String
  width : Option Int
  height : Option Int
deriving DecidableEq

/-- `RenderedImage.get_data_uri`. -/
def RenderedImage.getDataUri (img : RenderedImage) : String :=
  "data:" ++ img.mime_type ++ ";base64," ++ img.base64_data

/-- Rendered table data (`RenderedTable`). -/
structure RenderedTable where
  rows : Nat
  cols : Nat
  html : String
  json_data : Option JsonV

/-- The cell part of the `table_to_html` loop body: the tag is `th` for
row index 0 and `td` for every later row. -/
def tableCellHtml (i : Nat) (cell : String) : String :=
  let tag := if i == 0 then "th" else "td"
  "<" ++ tag ++ ">" ++ cell ++ "</" ++ tag ++ ">"

/-- The row part of the `table_to_html` loop body. -/
def tableRowHtml (ir : Nat × List String) : String :=
  "<tr>" ++ String.join (ir.2.map (tableCellHtml ir.1)) ++ "</tr>"

/-- `table_to_html`: `<table>`, then one `<tr>` per row whose cells are
tagged `th` for row index 0 and `td` otherwise, then `</table>`;
the empty row list renders to `""`. -/
def table_to_html (rows : List (List String)) : String :=
  if rows.isEmpty then ""
  else "<table>" ++ String.join (rows.enum.map tableRowHtml) ++ "</table>"

/-- `table_to_json`: a TipTap-style table block (empty dict for no rows). -/
def table_to_json (rows : List (List String)) : JsonV :=
  if rows.isEmpty then .obj []
  else
    .obj [("type", .str "table"),
          ("content", .arr (rows.map (fun rowData =>
            .obj [("type", .str "tableRow"),
                  ("content", .arr (rowData.map (fun cell =>
                    .obj [("type", .str "tableCell"),
                          ("content", .arr [
                            .obj [("type", .str "paragraph"),
                                  ("content", .arr [
                                    .obj [("type", .str "text"),
                                          ("text", .str cell)]])]])])))])))]

/-! ### RichTextRenderer

The renderer's state (`content_blocks`) is the list of JSON blocks; the
`add_*` methods append a block and `render_html` folds over the blocks.
-/

/-- `RichTextRenderer.add_heading`: the stored level is `min(level, 6)`. -/
def addHeading (blocks : List JsonV) (text : String) (level : Nat) : List JsonV :=
  blocks ++ [.obj [("type", .str "heading"),
                   ("attrs", .obj [("level", .num (Int.ofNat (min level 6)))]),
                   ("content", .arr (if text = "" then []
                     else [.obj [("type", .str "text"), ("text", .str text)]]))]]

/-- `RichTextRenderer.add_paragraph` (skips blank text). -/
def addParagraph (blocks : List JsonV) (text : String) : List JsonV :=
  if pyStrip text = "" then blocks
  else blocks ++ [.obj [("type", .str "paragraph"),
                        ("content", .arr [.obj [("type", .str "text"),
                                                ("text", .str text)]])]]

/-- `RichTextRenderer._extract_text`. -/
def extractText (content : List JsonV) : String :=
  String.join (content.filterMap (fun item =>
    match jget item "type" with
    | some (.str "text") =>
      some (match jget item "text" with
            | some (.str t) => t
            | _ => "")
    | _ => none))

/-- The `content` array of a block (`block.get("content", [])`). -/
def blockContent (block : JsonV) : List JsonV :=
  match jget block "content" with
  | some (.arr xs) => xs
  | _ => []

/-- One iteration of the `render_html` loop. -/
def renderBlock (block : JsonV) : String :=
  match jget block "type" with
  | some (.str "heading") =>
    let level : Int :=
      match jget block "attrs" with
      | some attrs =>
        (match jget attrs "level" with
         | some (.num n) => n
         | _ => 2)
      | none => 2
    "<h" ++ intStr level ++ ">" ++ extractText (blockContent block) ++
      "</h" ++ intStr level ++ ">"
  | some (.str "paragraph") =>
    "<p>" ++ extractText (blockContent block) ++ "</p>"
  | some (.str "image") =>
    let attrs := (jget block "attrs").getD (.obj [])
    let src := match jget attrs "src" with | some (.str s) => s | _ => ""
    let alt := match jget attrs "alt" with | some (.str s) => s | _ => ""
    let widthPart := match jget attrs "width" with
      | some (.num n) => if n ≠ 0 then " width=\x22" ++ intStr n ++ "\x22" else ""
      | _ => ""
    let heightPart := match jget attrs "height" with
      | some (.num n) => if n ≠ 0 then " height=\x22" ++ intStr n ++ "\x22" else ""
      | _ => ""
    "<img src=\x22" ++ src ++ "\x22 alt=\x22" ++ alt ++ "\x22" ++
      widthPart ++ heightPart ++ " />"
  | some (.str "table") =>
    match jget block "html" with | some (.str s) => s | _ => ""
  | some (.str "html") =>
    match jget block "content" with | some (.str s) => s | _ => ""
  | _ => ""

/-- `RichTextRenderer.render_html`: concatenation of the rendered blocks. -/
def renderHtml (blocks : List JsonV) : String :=
  String.join (blocks.map renderBlock)

/-! ## The docx parser (docx.py)

A body element is a paragraph or a table; a paragraph carries the fields
`DocxParser` reads from the XML: its style name, raw text, whether any
child element is a drawing, the `embed` relationship ids of its blip
children, and its explicit / style-inherited numbering reference. A table
carries its raw row-major cell texts. The package-level inputs are the
relationship list (for image extraction) and the numbering definitions.
-/

/-- A package relationship (`doc.part.rels`), with its target part's
content type and blob (base64 encoded). -/
structure Rel where
  rId : String
  targetRef : String
  mime : String
  b64 : String
deriving DecidableEq

/-- The fields of a body paragraph that `parse_by_heading` reads. -/
structure Para where
  style : Option String := none
  text : String := ""
  hasDrawing : Bool := false
  blips : List String := []
  numPr : Option (Option Nat × Option Nat) := none
  styleNumPr : Option (Option Nat × Option Nat) := none
deriving DecidableEq

inductive BodyElem where
  | para (p : Para)
  | table (grid : List (List String))
deriving DecidableEq

/-- The parts of a document package that `parse_by_heading` consumes. -/
structure DocModel where
  rels : List Rel := []
  numbering : NumberingDefs := NumberingDefs.empty
  body : List BodyElem := []

/-- `settings.max_heading_level` (config.py). -/
def max_heading_level : Nat := 9

/-- `DocxParser._get_heading_level`: first `k` in `1..=max_heading_level`
with `"heading k"` a substring of the lowercased style name. -/
def getHeadingLevel (style : Option String) : Option Nat :=
  match style with
  | none => none
  | some name =>
    (List.range' 1 max_heading_level).find?
      (fun level => strContains (pyLower name) ("heading " ++ natStr level))

/-- `DocxParser._get_heading_label`. -/
def getHeadingLabel (level : Nat) : String := "h" ++ natStr level

/-- `DocxParser._get_list_type_from_num_id`, in the `parse_by_heading`
setting where the numbering extractor is always initialized. -/
def getListTypeFromNumId (defs : NumberingDefs) (numId : Nat) : String :=
  match getLevelDef defs numId 0 with
  | some ld =>
    if ld.fmt ∈ ["decimal", "roman", "upperRoman", "lowerRoman",
                 "upperLetter", "lowerLetter", "chineseCounting"] then "ordered"
    else if ld.fmt ∈ ["bullet", "none"] then "bullet"
    else if ld.lvlText ≠ "" ∧ strContains ld.lvlText "%" then "ordered"
    else "bullet"
  | none => "ordered"

/-- Result of `DocxParser._get_list_info`. -/
structure ListInfo where
  type : String
  level : Nat
  num_id : Nat
deriving DecidableEq

/-- `DocxParser._get_list_info`: explicit `numPr` first, then the
style-inherited one; absent values default to 0. -/
def getListInfo (defs : NumberingDefs) (p : Para) : Option ListInfo :=
  match p.numPr.orElse (fun _ => p.styleNumPr) with
  | none => none
  | some (ilvlOpt, numIdOpt) =>
    let ilvl := ilvlOpt.getD 0
    let numId := numIdOpt.getD 0
    some ⟨getListTypeFromNumId defs numId, ilvl, numId⟩

/-- `DocxParser._format_list_item`: two spaces of indent per level, then
`<N> ` for ordered items or `- ` for bullets. -/
def formatListItem (listType : String) (level : Nat) (counter : Nat)
    (text : String) : String :=
  let indent := strRepeat "  " level
  if listType == "ordered" then indent ++ "<" ++ natStr counter ++ "> " ++ text
  else indent ++ "- " ++ text

/-- A content item with type for ordered rendering (`ContentItem`). -/
inductive ContentItem where
  | paragraph (text : String)
  | table (t : RenderedTable)
  | image (img : RenderedImage)

/-- The parent reference dict stored on a section. -/
structure ParentRef where
  heading : String
  number_path : String
  title : String
deriving DecidableEq

/-- A parsed numbered section (`ParsedSection`). -/
structure ParsedSection where
  heading : String := "h1"
  number_path : String := ""
  level : Nat := 1
  parent : Option ParentRef := none
  title : Option String := none
  paragraphs : List String := []
  marked_paragraphs : List String := []
  tables : List RenderedTable := []
  images : List RenderedImage := []
  content_items : List ContentItem := []

/-- The in-section list tracking state (`list_state` in `parse_by_heading`). -/
structure ListState where
  num_id : Option Nat := none
  list_type : Option String := none
  level : Nat := 0
  counters : List (Nat × Nat) := []
deriving DecidableEq

/-- The mutable state threaded through the `parse_by_heading` body loop. -/
structure HState where
  counters : Nat → Nat
  context : List (String × (String × String))
  listState : ListState
  sections : List ParsedSection
  current : Option ParsedSection
  relMap : List (String × RenderedImage)
  assigned : List String

/-- `DocxParser._extract_all_images`: one `RenderedImage` per
image-typed relationship. -/
def extractAllImages (rels : List Rel) : List RenderedImage :=
  (rels.filter (fun r => strContains r.targetRef "image")).map
    (fun r => ⟨lastComp r.targetRef, r.mime, r.b64, none, none⟩)

/-- The `_rel_to_image` map: each image relationship id mapped to the
first extracted image with the same filename. -/
def buildRelMap (rels : List Rel) (imgs : List RenderedImage) :
    List (String × RenderedImage) :=
  (rels.filter (fun r => strContains r.targetRef "image")).filterMap
    (fun r => (imgs.find? (fun img => img.filename == lastComp r.targetRef)).map
      (fun img => (r.rId, img)))

/-- The per-paragraph blip loop: resolve each embed id through the rel
map and keep the image unless its filename was already assigned; returns
the paragraph's images and the grown assigned set. -/
def collectImages (relMap : List (String × RenderedImage)) (assigned : List String) :
    List String → List RenderedImage × List String
  | [] => ([], assigned)
  | embed :: rest =>
    match relMap.lookup embed with
    | some img =>
      if img.filename ∈ assigned then collectImages relMap assigned rest
      else
        let r := collectImages relMap (img.filename :: assigned) rest
        (img :: r.1, r.2)
    | none => collectImages relMap assigned rest

/-- The image-attachment loop at the end of the non-heading paragraph
branch: append each image not already present (by filename) to the
section's `images` and `content_items`. -/
def attachImages (sec : ParsedSection) (imgs : List RenderedImage) : ParsedSection :=
  imgs.foldl (fun s img =>
    if img.filename ∈ s.images.map (fun i => i.filename) then s
    else { s with images := s.images ++ [img],
                  content_items := s.content_items ++ [.image img] }) sec

/-- `DocxParser._process_table_and_return`: trim every cell into a
row-major grid; an empty grid yields no table. -/
def processTableAndReturn (grid : List (List String)) : Option RenderedTable :=
  let rowsData := grid.map (fun row => row.map (fun cell => pyStrip cell))
  if rowsData.isEmpty then none
  else some ⟨rowsData.length, (rowsData.headD []).length,
             table_to_html rowsData, some (table_to_json rowsData)⟩

/-- The non-heading paragraph branch of the body loop, acting on the
open section and the list state: a list item with non-empty text is
marked and appended (counters advanced), a plain non-empty paragraph is
appended and resets the list state, and empty text changes nothing. -/
def updateSectionContent (ls0 : ListState) (text : String)
    (li : Option ListInfo) (sec : ParsedSection) : ParsedSection × ListState :=
  match li with
  | some info =>
    if text ≠ "" then
      let ls := if ls0.num_id ≠ some info.num_id ∨ ls0.list_type ≠ some info.type
        then { ls0 with num_id := some info.num_id,
                        list_type := some info.type, counters := [] }
        else ls0
      let ls := { ls with level := info.level }
      let cnt := ls.counters.filter
        (fun kv => !(decide (info.level < kv.1) && decide (kv.1 < 9)))
      let newCount := (cnt.lookup info.level).getD 0 + 1
      let ls := { ls with counters := setA cnt info.level newCount }
      let marked := formatListItem info.type info.level newCount text
      ({ sec with paragraphs := sec.paragraphs ++ [text],
                  marked_paragraphs := sec.marked_paragraphs ++ [marked],
                  content_items := sec.content_items ++ [.paragraph text] },
       ls)
    else (sec, ls0)
  | none =>
    if text ≠ "" then
      ({ sec with paragraphs := sec.paragraphs ++ [text],
                  marked_paragraphs := sec.marked_paragraphs ++ [text],
                  content_items := sec.content_items ++ [.paragraph text] },
       {})
    else (sec, ls0)

/-- `DocxParser._finalize_current_section`. -/
def finalizeCurrent (st : HState) : HState :=
  match st.current with
  | some sec => { st with sections := st.sections ++ [sec], current := none }
  | none => { st with current := none }

/-- The per-paragraph image collection: build the rel map on first need,
then resolve this paragraph's blips (no-op for paragraphs without a
drawing). Returns ((paragraph images, new assigned set), rel map). -/
def collectParaImages (doc : DocModel) (imgs : List RenderedImage)
    (st : HState) (p : Para) :
    (List RenderedImage × List String) × List (String × RenderedImage) :=
  let relMap := if p.hasDrawing ∧ st.relMap.isEmpty
    then buildRelMap doc.rels imgs else st.relMap
  let collected := if p.hasDrawing
    then collectImages relMap st.assigned p.blips else ([], st.assigned)
  (collected, relMap)

/-- One iteration of the `parse_by_heading` body loop. -/
def processElement (doc : DocModel) (imgs : List RenderedImage) (st : HState) :
    BodyElem → HState
  | .table grid =>
    match processTableAndReturn grid, st.current with
    | some rt, some sec =>
      { st with current := some { sec with
          content_items := sec.content_items ++ [.table rt] } }
    | _, _ => st
  | .para p =>
    let text := pyStrip p.text
    if text = "" ∧ ¬p.hasDrawing then st
    else
      let cr := collectParaImages doc imgs st p
      let paraImgs := cr.1.1
      let st := { st with relMap := cr.2, assigned := cr.1.2 }
      match getHeadingLevel p.style with
      | some hl =>
        -- increment this level, reset the deeper ones
        let counters' := fun l =>
          if l = hl then st.counters hl + 1
          else if hl < l ∧ l < max_heading_level + 1 then 0
          else st.counters l
        let numberPath := joinSep "."
          ((List.range' 1 hl).map (fun l => natStr (counters' l)))
        let label := getHeadingLabel hl
        let parent : Option ParentRef :=
          if 1 < hl then
            match st.context.lookup (getHeadingLabel (hl - 1)) with
            | some pInfo => some ⟨getHeadingLabel (hl - 1), pInfo.1, pInfo.2⟩
            | none => none
          else none
        let context1 := setA st.context label (numberPath, text)
        let context2 := (List.range' (hl + 1) (max_heading_level - hl)).foldl
          (fun ctx l => ctx.filter (fun kv => kv.1 ≠ getHeadingLabel l)) context1
        let sec : ParsedSection :=
          { heading := label, number_path := numberPath, level := hl,
            parent := parent, title := some text }
        let st2 := finalizeCurrent
          { st with counters := counters', context := context2, listState := {} }
        { st2 with current := some sec }
      | none =>
        match st.current with
        | none => st
        | some sec =>
          let updated := updateSectionContent st.listState text
            (getListInfo doc.numbering p) sec
          { st with current := some (attachImages updated.1 paraImgs),
                    listState := updated.2 }

/-- The initial loop state of `parse_by_heading`. -/
def initialHState : HState :=
  { counters := fun _ => 0, context := [], listState := {},
    sections := [], current := none, relMap := [], assigned := [] }

/-- `DocxParser.parse_by_heading`: walk the body, then finalize; the
result is the section list of the returned `ParsedDocument`. -/
def parse_by_heading (doc : DocModel) : List ParsedSection :=
  let imgs := extractAllImages doc.rels
  (finalizeCurrent (doc.body.foldl (processElement doc imgs) initialHState)).sections

/-! ## Recovering the grid from `table_to_html` output

The design document's round-trip property mentions a `table_to_grid`
inverse that the repository does not ship; it is modelled here from the
spec's description of the HTML shape (`<table>`, `<tr>` rows, `th`
header cells, `td` data cells).
-/

def thOpen : List Char := ['<', 't', 'h', '>']
def thClose : List Char := ['<', '/', 't', 'h', '>']
def tdOpen : List Char := ['<', 't', 'd', '>']
def tdClose : List Char := ['<', '/', 't', 'd', '>']
def trOpen : List Char := ['<', 't', 'r', '>']
def trClose : List Char := ['<', '/', 't', 'r', '>']

/-- Split a character stream at the first occurrence of `stop`:
returns the part before it and the part after it (everything, and `[]`,
when `stop` does not occur). -/
def splitBefore (stop : List Char) : List Char → List Char × List Char
  | [] => ([], [])
  | c :: cs =>
    if stop.isPrefixOf (c :: cs) then ([], (c :: cs).drop stop.length)
    else (c :: (splitBefore stop cs).1, (splitBefore stop cs).2)

/-- Read a run of `<th>c</th>` / `<td>c</td>` cells. -/
def parseCellsF : Nat → List Char → List (List Char)
  | 0, _ => []
  | fuel + 1, l =>
    if thOpen.isPrefixOf l then
      (splitBefore thClose (l.drop 4)).1 ::
        parseCellsF fuel (splitBefore thClose (l.drop 4)).2
    else if tdOpen.isPrefixOf l then
      (splitBefore tdClose (l.drop 4)).1 ::
        parseCellsF fuel (splitBefore tdClose (l.drop 4)).2
    else []

/-- Read a run of `<tr>...</tr>` rows. -/
def parseRowsF : Nat → List Char → List (List (List Char))
  | 0, _ => []
  | fuel + 1, l =>
    if trOpen.isPrefixOf l then
      parseCellsF (splitBefore trClose (l.drop 4)).1.length
          (splitBefore trClose (l.drop 4)).1 ::
        parseRowsF fuel (splitBefore trClose (l.drop 4)).2
    else []

/-- Modelled from the spec: the `table_to_grid` inverse of
`table_to_html` named by the round-trip property in §8 is not part of
the repository; following the spec's description of the rendered shape,
it extracts the per-cell texts from an HTML table string produced by
`table_to_html`. -/
def tableFromHtml (s : String) : List (List String) :=
  if ("<table>".data).isPrefixOf s.data then
    (parseRowsF s.data.length (s.data.drop 7)).map (fun row => row.map String.mk)
  else []

end WordAnalysis

namespace WordAnalysis

def cellsFlat (o c : List Char) (cells : List (List Char)) : List Char :=
  (cells.map (fun b => o ++ b ++ c)).flatten

def rowBlock (o c : List Char) (cells : List (List Char)) : List Char :=
  trOpen ++ cellsFlat o c cells ++ trClose

theorem isPrefixOf_append_self (p b : List Char) : p.isPrefixOf (p ++ b) = true := by
  induction p with
  | nil => simp [List.isPrefixOf]
  | cons x xs ih => simp [List.isPrefixOf, ih]

theorem sb_step (stop : List Char) (x : Char) (xs : List Char)
    (h : stop.isPrefixOf (x :: xs) = false) :
    splitBefore stop (x :: xs) =
      (x :: (splitBefore stop xs).1, (splitBefore stop xs).2) := by
  simp [splitBefore, h]

theorem sb_hit (stop b : List Char) : splitBefore stop (stop ++ b) = ([], b) := by
  cases stop with
  | nil =>
    cases b with
    | nil => rfl
    | cons c cs => simp [splitBefore, List.isPrefixOf]
  | cons s ss =>
    have hpre := isPrefixOf_append_self (s :: ss) b
    rw [List.cons_append]
    rw [splitBefore]
    simp only [← List.cons_append, hpre, if_true, List.drop_left]

theorem sb_skip_clean (t : List Char) (xs : List Char) (hc : '<' ∉ xs)
    (l : List Char) :
    splitBefore ('<' :: t) (xs ++ l) =
      (xs ++ (splitBefore ('<' :: t) l).1, (splitBefore ('<' :: t) l).2) := by
  induction xs with
  | nil => simp
  | cons x xs ih =>
    have hx : x ≠ '<' := by
      intro h; exact hc (by simp [h])
    have hpre : ('<' :: t).isPrefixOf (x :: (xs ++ l)) = false := by
      simp [List.isPrefixOf]
      intro h
      exact absurd h.symm hx
    rw [List.cons_append, sb_step _ _ _ hpre, ih (fun h => hc (by simp [h]))]
    simp

theorem sb_trC_thOpen (l : List Char) :
    splitBefore trClose (thOpen ++ l) =
      (thOpen ++ (splitBefore trClose l).1, (splitBefore trClose l).2) := by
  have h1 : trClose.isPrefixOf ('<' :: 't' :: 'h' :: '>' :: l) = false := by
    simp [List.isPrefixOf, trClose]
  have h2 : trClose.isPrefixOf ('t' :: 'h' :: '>' :: l) = false := by
    simp [List.isPrefixOf, trClose]
  have h3 : trClose.isPrefixOf ('h' :: '>' :: l) = false := by
    simp [List.isPrefixOf, trClose]
  have h4 : trClose.isPrefixOf ('>' :: l) = false := by
    simp [List.isPrefixOf, trClose]
  show splitBefore trClose ('<' :: 't' :: 'h' :: '>' :: l) = _
  rw [sb_step _ _ _ h1, sb_step _ _ _ h2, sb_step _ _ _ h3, sb_step _ _ _ h4]
  simp [thOpen]

theorem sb_trC_thClose (l : List Char) :
    splitBefore trClose (thClose ++ l) =
      (thClose ++ (splitBefore trClose l).1, (splitBefore trClose l).2) := by
  have h1 : trClose.isPrefixOf ('<' :: '/' :: 't' :: 'h' :: '>' :: l) = false := by
    simp [List.isPrefixOf, trClose]
  have h2 : trClose.isPrefixOf ('/' :: 't' :: 'h' :: '>' :: l) = false := by
    simp [List.isPrefixOf, trClose]
  have h3 : trClose.isPrefixOf ('t' :: 'h' :: '>' :: l) = false := by
    simp [List.isPrefixOf, trClose]
  have h4 : trClose.isPrefixOf ('h' :: '>' :: l) = false := by
    simp [List.isPrefixOf, trClose]
  have h5 : trClose.isPrefixOf ('>' :: l) = false := by
    simp [List.isPrefixOf, trClose]
  show splitBefore trClose ('<' :: '/' :: 't' :: 'h' :: '>' :: l) = _
  rw [sb_step _ _ _ h1, sb_step _ _ _ h2, sb_step _ _ _ h3, sb_step _ _ _ h4,
      sb_step _ _ _ h5]
  simp [thClose]

end WordAnalysis

namespace WordAnalysis

theorem sb_trC_tdOpen (l : List Char) :
    splitBefore trClose (tdOpen ++ l) =
      (tdOpen ++ (splitBefore trClose l).1, (splitBefore trClose l).2) := by
  have h1 : trClose.isPrefixOf ('<' :: 't' :: 'd' :: '>' :: l) = false := by
    simp [List.isPrefixOf, trClose]
  have h2 : trClose.isPrefixOf ('t' :: 'd' :: '>' :: l) = false := by
    simp [List.isPrefixOf, trClose]
  have h3 : trClose.isPrefixOf ('d' :: '>' :: l) = false := by
    simp [List.isPrefixOf, trClose]
  have h4 : trClose.isPrefixOf ('>' :: l) = false := by
    simp [List.isPrefixOf, trClose]
  show splitBefore trClose ('<' :: 't' :: 'd' :: '>' :: l) = _
  rw [sb_step _ _ _ h1, sb_step _ _ _ h2, sb_step _ _ _ h3, sb_step _ _ _ h4]
  simp [tdOpen]

theorem sb_trC_tdClose (l : List Char) :
    splitBefore trClose (tdClose ++ l) =
      (tdClose ++ (splitBefore trClose l).1, (splitBefore trClose l).2) := by
  have h1 : trClose.isPrefixOf ('<' :: '/' :: 't' :: 'd' :: '>' :: l) = false := by
    simp [List.isPrefixOf, trClose]
  have h2 : trClose.isPrefixOf ('/' :: 't' :: 'd' :: '>' :: l) = false := by
    simp [List.isPrefixOf, trClose]
  have h3 : trClose.isPrefixOf ('t' :: 'd' :: '>' :: l) = false := by
    simp [List.isPrefixOf, trClose]
  have h4 : trClose.isPrefixOf ('d' :: '>' :: l) = false := by
    simp [List.isPrefixOf, trClose]
  have h5 : trClose.isPrefixOf ('>' :: l) = false := by
    simp [List.isPrefixOf, trClose]
  show splitBefore trClose ('<' :: '/' :: 't' :: 'd' :: '>' :: l) = _
  rw [sb_step _ _ _ h1, sb_step _ _ _ h2, sb_step _ _ _ h3, sb_step _ _ _ h4,
      sb_step _ _ _ h5]
  simp [tdClose]

theorem trClose_cons : trClose = '<' :: ['/', 't', 'r', '>'] := rfl

theorem sb_trC_cellsFlat (o c : List Char)
    (ho : ∀ l, splitBefore trClose (o ++ l) =
      (o ++ (splitBefore trClose l).1, (splitBefore trClose l).2))
    (hc2 : ∀ l, splitBefore trClose (c ++ l) =
      (c ++ (splitBefore trClose l).1, (splitBefore trClose l).2)) :
    ∀ (cells : List (List Char)), (∀ x ∈ cells, '<' ∉ x) → ∀ (l : List Char),
    splitBefore trClose (cellsFlat o c cells ++ l) =
      (cellsFlat o c cells ++ (splitBefore trClose l).1,
       (splitBefore trClose l).2) := by
  intro cells
  induction cells with
  | nil => intro _ l; simp [cellsFlat]
  | cons b bs ih =>
    intro hclean l
    have hb : '<' ∉ b := hclean b (by simp)
    have hbs : ∀ x ∈ bs, '<' ∉ x := fun x hx => hclean x (by simp [hx])
    have e1 := ih hbs l
    have e2 : splitBefore trClose (c ++ (cellsFlat o c bs ++ l)) =
        (c ++ (cellsFlat o c bs ++ (splitBefore trClose l).1),
         (splitBefore trClose l).2) := by
      rw [hc2 (cellsFlat o c bs ++ l), e1]
    have eb := sb_skip_clean ['/', 't', 'r', '>'] b hb
      (c ++ (cellsFlat o c bs ++ l))
    rw [← trClose_cons] at eb
    have e3 : splitBefore trClose (b ++ (c ++ (cellsFlat o c bs ++ l))) =
        (b ++ (c ++ (cellsFlat o c bs ++ (splitBefore trClose l).1)),
         (splitBefore trClose l).2) := by
      rw [eb, e2]
    have e4 : splitBefore trClose (o ++ (b ++ (c ++ (cellsFlat o c bs ++ l)))) =
        (o ++ (b ++ (c ++ (cellsFlat o c bs ++ (splitBefore trClose l).1))),
         (splitBefore trClose l).2) := by
      rw [ho, e3]
    have hshape : cellsFlat o c (b :: bs) ++ l =
        o ++ (b ++ (c ++ (cellsFlat o c bs ++ l))) := by
      simp [cellsFlat]
    rw [hshape, e4]
    simp [cellsFlat]

end WordAnalysis

namespace WordAnalysis

theorem parseCellsF_nil (fuel : Nat) : parseCellsF fuel [] = [] := by
  cases fuel <;> simp [parseCellsF, List.isPrefixOf, thOpen, tdOpen]

theorem thClose_cons : thClose = '<' :: ['/', 't', 'h', '>'] := rfl
theorem tdClose_cons : tdClose = '<' :: ['/', 't', 'd', '>'] := rfl

theorem parseCells_th : ∀ (cells : List (List Char)) (fuel : Nat),
    (∀ x ∈ cells, '<' ∉ x) → (cellsFlat thOpen thClose cells).length ≤ fuel →
    parseCellsF fuel (cellsFlat thOpen thClose cells) = cells := by
  intro cells
  induction cells with
  | nil => intro fuel _ _; simp [cellsFlat, parseCellsF_nil]
  | cons b bs ih =>
    intro fuel hclean hfuel
    have hb : '<' ∉ b := hclean b (by simp)
    have hbs : ∀ x ∈ bs, '<' ∉ x := fun x hx => hclean x (by simp [hx])
    have hshape : cellsFlat thOpen thClose (b :: bs) =
        thOpen ++ (b ++ (thClose ++ cellsFlat thOpen thClose bs)) := by
      simp [cellsFlat]
    have hlen : (cellsFlat thOpen thClose (b :: bs)).length =
        9 + b.length + (cellsFlat thOpen thClose bs).length := by
      rw [hshape]; simp [thOpen, thClose]; omega
    cases fuel with
    | zero => rw [hlen] at hfuel; omega
    | succ f =>
      rw [hshape, parseCellsF]
      have hpre := isPrefixOf_append_self thOpen
        (b ++ (thClose ++ cellsFlat thOpen thClose bs))
      rw [hpre]
      simp only [if_true]
      have hdrop : (thOpen ++ (b ++ (thClose ++ cellsFlat thOpen thClose bs))).drop 4 =
          b ++ (thClose ++ cellsFlat thOpen thClose bs) := by
        rw [show (4 : Nat) = thOpen.length from rfl, List.drop_left]
      rw [hdrop]
      have hsplit : splitBefore thClose (b ++ (thClose ++ cellsFlat thOpen thClose bs)) =
          (b, cellsFlat thOpen thClose bs) := by
        have eb := sb_skip_clean ['/', 't', 'h', '>'] b hb
          (thClose ++ cellsFlat thOpen thClose bs)
        rw [← thClose_cons] at eb
        rw [eb, sb_hit]
        simp
      rw [hsplit]
      rw [ih f hbs (by rw [hlen] at hfuel; omega)]

theorem parseCells_td : ∀ (cells : List (List Char)) (fuel : Nat),
    (∀ x ∈ cells, '<' ∉ x) → (cellsFlat tdOpen tdClose cells).length ≤ fuel →
    parseCellsF fuel (cellsFlat tdOpen tdClose cells) = cells := by
  intro cells
  induction cells with
  | nil => intro fuel _ _; simp [cellsFlat, parseCellsF_nil]
  | cons b bs ih =>
    intro fuel hclean hfuel
    have hb : '<' ∉ b := hclean b (by simp)
    have hbs : ∀ x ∈ bs, '<' ∉ x := fun x hx => hclean x (by simp [hx])
    have hshape : cellsFlat tdOpen tdClose (b :: bs) =
        tdOpen ++ (b ++ (tdClose ++ cellsFlat tdOpen tdClose bs)) := by
      simp [cellsFlat]
    have hlen : (cellsFlat tdOpen tdClose (b :: bs)).length =
        9 + b.length + (cellsFlat tdOpen tdClose bs).length := by
      rw [hshape]; simp [tdOpen, tdClose]; omega
    cases fuel with
    | zero => rw [hlen] at hfuel; omega
    | succ f =>
      rw [hshape, parseCellsF]
      have hth : thOpen.isPrefixOf
          (tdOpen ++ (b ++ (tdClose ++ cellsFlat tdOpen tdClose bs))) = false := by
        simp [List.isPrefixOf, thOpen, tdOpen]
      have hpre := isPrefixOf_append_self tdOpen
        (b ++ (tdClose ++ cellsFlat tdOpen tdClose bs))
      rw [hth, hpre]
      simp only [if_true, Bool.false_eq_true, if_false]
      have hdrop : (tdOpen ++ (b ++ (tdClose ++ cellsFlat tdOpen tdClose bs))).drop 4 =
          b ++ (tdClose ++ cellsFlat tdOpen tdClose bs) := by
        rw [show (4 : Nat) = tdOpen.length from rfl, List.drop_left]
      rw [hdrop]
      have hsplit : splitBefore tdClose (b ++ (tdClose ++ cellsFlat tdOpen tdClose bs)) =
          (b, cellsFlat tdOpen tdClose bs) := by
        have eb := sb_skip_clean ['/', 't', 'd', '>'] b hb
          (tdClose ++ cellsFlat tdOpen tdClose bs)
        rw [← tdClose_cons] at eb
        rw [eb, sb_hit]
        simp
      rw [hsplit]
      rw [ih f hbs (by rw [hlen] at hfuel; omega)]

end WordAnalysis

namespace WordAnalysis

/-- Concatenated `<tr>` blocks of data rows (all `td`). -/
def rowsFlatTd (rows : List (List (List Char))) : List Char :=
  (rows.map (rowBlock tdOpen tdClose)).flatten

theorem parseRowsF_stop (fuel : Nat) (sfx : List Char)
    (h : trOpen.isPrefixOf sfx = false) : parseRowsF fuel sfx = [] := by
  cases fuel with
  | zero => rfl
  | succ f => rw [parseRowsF, h]; simp

theorem parseRows_td : ∀ (rows : List (List (List Char))) (sfx : List Char),
    trOpen.isPrefixOf sfx = false →
    (∀ r ∈ rows, ∀ x ∈ r, '<' ∉ x) →
    ∀ fuel, (rowsFlatTd rows).length ≤ fuel →
    parseRowsF fuel (rowsFlatTd rows ++ sfx) = rows := by
  intro rows
  induction rows with
  | nil =>
    intro sfx hsfx _ fuel _
    simp only [rowsFlatTd, List.map_nil, List.flatten_nil, List.nil_append]
    exact parseRowsF_stop fuel sfx hsfx
  | cons r rs ih =>
    intro sfx hsfx hclean fuel hfuel
    have hr : ∀ x ∈ r, '<' ∉ x := hclean r (by simp)
    have hrs : ∀ r' ∈ rs, ∀ x ∈ r', '<' ∉ x :=
      fun r' hr' => hclean r' (by simp [hr'])
    have hshape : rowsFlatTd (r :: rs) ++ sfx =
        trOpen ++ (cellsFlat tdOpen tdClose r ++
          (trClose ++ (rowsFlatTd rs ++ sfx))) := by
      simp [rowsFlatTd, rowBlock, cellsFlat]
    have hlen : (rowsFlatTd (r :: rs)).length =
        9 + (cellsFlat tdOpen tdClose r).length + (rowsFlatTd rs).length := by
      simp [rowsFlatTd, rowBlock, trOpen, trClose]
      omega
    cases fuel with
    | zero => rw [hlen] at hfuel; omega
    | succ f =>
      rw [hshape, parseRowsF]
      have hpre := isPrefixOf_append_self trOpen
        (cellsFlat tdOpen tdClose r ++ (trClose ++ (rowsFlatTd rs ++ sfx)))
      rw [hpre]
      simp only [if_true]
      have hdrop : (trOpen ++ (cellsFlat tdOpen tdClose r ++
          (trClose ++ (rowsFlatTd rs ++ sfx)))).drop 4 =
          cellsFlat tdOpen tdClose r ++ (trClose ++ (rowsFlatTd rs ++ sfx)) := by
        rw [show (4 : Nat) = trOpen.length from rfl, List.drop_left]
      rw [hdrop]
      have hsplit : splitBefore trClose (cellsFlat tdOpen tdClose r ++
          (trClose ++ (rowsFlatTd rs ++ sfx))) =
          (cellsFlat tdOpen tdClose r, rowsFlatTd rs ++ sfx) := by
        rw [sb_trC_cellsFlat tdOpen tdClose sb_trC_tdOpen sb_trC_tdClose r hr,
            sb_hit]
        simp
      rw [hsplit]
      rw [parseCells_td r _ hr (Nat.le_refl _)]
      rw [ih sfx hsfx hrs f (by rw [hlen] at hfuel; omega)]

theorem parseRows_all (r0 : List (List Char)) (rs : List (List (List Char)))
    (sfx : List Char) (hsfx : trOpen.isPrefixOf sfx = false)
    (hr0 : ∀ x ∈ r0, '<' ∉ x)
    (hrs : ∀ r ∈ rs, ∀ x ∈ r, '<' ∉ x)
    (fuel : Nat)
    (hfuel : (rowBlock thOpen thClose r0 ++ rowsFlatTd rs).length ≤ fuel) :
    parseRowsF fuel (rowBlock thOpen thClose r0 ++ (rowsFlatTd rs ++ sfx)) =
      r0 :: rs := by
  have hshape : rowBlock thOpen thClose r0 ++ (rowsFlatTd rs ++ sfx) =
      trOpen ++ (cellsFlat thOpen thClose r0 ++
        (trClose ++ (rowsFlatTd rs ++ sfx))) := by
    simp [rowBlock]
  have hlen : (rowBlock thOpen thClose r0).length =
      9 + (cellsFlat thOpen thClose r0).length := by
    simp [rowBlock, trOpen, trClose]
    omega
  cases fuel with
  | zero => rw [List.length_append, hlen] at hfuel; omega
  | succ f =>
    rw [hshape, parseRowsF]
    have hpre := isPrefixOf_append_self trOpen
      (cellsFlat thOpen thClose r0 ++ (trClose ++ (rowsFlatTd rs ++ sfx)))
    rw [hpre]
    simp only [if_true]
    have hdrop : (trOpen ++ (cellsFlat thOpen thClose r0 ++
        (trClose ++ (rowsFlatTd rs ++ sfx)))).drop 4 =
        cellsFlat thOpen thClose r0 ++ (trClose ++ (rowsFlatTd rs ++ sfx)) := by
      rw [show (4 : Nat) = trOpen.length from rfl, List.drop_left]
    rw [hdrop]
    have hsplit : splitBefore trClose (cellsFlat thOpen thClose r0 ++
        (trClose ++ (rowsFlatTd rs ++ sfx))) =
        (cellsFlat thOpen thClose r0, rowsFlatTd rs ++ sfx) := by
      rw [sb_trC_cellsFlat thOpen thClose sb_trC_thOpen sb_trC_thClose r0 hr0,
          sb_hit]
      simp
    rw [hsplit]
    rw [parseCells_th r0 _ hr0 (Nat.le_refl _)]
    rw [parseRows_td rs sfx hsfx hrs f
      (by rw [List.length_append, hlen] at hfuel; omega)]

end WordAnalysis

namespace WordAnalysis

theorem foldl_append_data (l : List String) : ∀ (s : String),
    (l.foldl (fun r t => r ++ t) s).data = s.data ++ (l.map String.data).flatten := by
  induction l with
  | nil => intro s; simp
  | cons x xs ih =>
    intro s
    simp only [List.foldl_cons, ih (s ++ x), String.data_append, List.map_cons,
      List.flatten_cons, List.append_assoc]

theorem join_data (l : List String) :
    (String.join l).data = (l.map String.data).flatten := by
  have h := foldl_append_data l ""
  simpa [String.join] using h

theorem tableCellHtml_zero_data (cell : String) :
    (tableCellHtml 0 cell).data = thOpen ++ cell.data ++ thClose := by
  simp [tableCellHtml, String.data_append, thOpen, thClose]

theorem tableCellHtml_ne_data (i : Nat) (hi : i ≠ 0) (cell : String) :
    (tableCellHtml i cell).data = tdOpen ++ cell.data ++ tdClose := by
  have : (i == 0) = false := by simp [hi]
  simp [tableCellHtml, this, String.data_append, tdOpen, tdClose]

theorem tableRowHtml_zero_data (r : List String) :
    (tableRowHtml (0, r)).data = rowBlock thOpen thClose (r.map String.data) := by
  simp only [tableRowHtml, String.data_append, join_data, List.map_map,
    rowBlock, cellsFlat]
  simp [Function.comp_def, tableCellHtml_zero_data, trOpen, trClose, thOpen, thClose,
    List.append_assoc]

theorem tableRowHtml_ne_data (i : Nat) (hi : i ≠ 0) (r : List String) :
    (tableRowHtml (i, r)).data = rowBlock tdOpen tdClose (r.map String.data) := by
  simp only [tableRowHtml, String.data_append, join_data, List.map_map,
    rowBlock, cellsFlat]
  simp [Function.comp_def, tableCellHtml_ne_data i hi, trOpen, trClose, tdOpen, tdClose,
    List.append_assoc]

theorem enumFrom_map_of_ne_zero {α β : Type} (f : Nat × α → β) (g : α → β)
    (hfg : ∀ i a, i ≠ 0 → f (i, a) = g a) :
    ∀ (rs : List α) (n : Nat), n ≠ 0 → (List.enumFrom n rs).map f = rs.map g := by
  intro rs
  induction rs with
  | nil => intro n _; rfl
  | cons a as ih =>
    intro n hn
    simp only [List.enumFrom, List.map_cons, hfg n a hn, ih (n + 1) (by omega)]

theorem table_to_html_data (r0 : List String) (rs : List (List String)) :
    (table_to_html (r0 :: rs)).data =
      "<table>".data ++
        (rowBlock thOpen thClose (r0.map String.data) ++
          (rowsFlatTd (rs.map (fun r => r.map String.data)) ++ "</table>".data)) := by
  have hmap : ((List.enumFrom 1 rs).map tableRowHtml).map String.data =
      rs.map (fun r => rowBlock tdOpen tdClose (r.map String.data)) := by
    rw [List.map_map]
    exact enumFrom_map_of_ne_zero _ _
      (fun i a hi => tableRowHtml_ne_data i hi a) rs 1 (by omega)
  have hflat : rowsFlatTd (rs.map (fun r => r.map String.data)) =
      (rs.map (fun r => rowBlock tdOpen tdClose (r.map String.data))).flatten := by
    rw [rowsFlatTd, List.map_map]
    rfl
  rw [table_to_html]
  simp only [List.isEmpty_cons, Bool.false_eq_true, if_false]
  rw [List.enum_cons, List.map_cons]
  simp only [String.data_append, join_data, List.map_cons, List.flatten_cons]
  rw [tableRowHtml_zero_data, hmap, hflat]
  simp [List.append_assoc]

end WordAnalysis

namespace WordAnalysis

theorem tableFromHtml_table_to_html (g : List (List String)) (hne : g ≠ [])
    (hclean : ∀ r ∈ g, ∀ cell ∈ r, '<' ∉ cell.data) :
    tableFromHtml (table_to_html g) = g := by
  cases g with
  | nil => exact absurd rfl hne
  | cons r0 rs =>
    have hdata := table_to_html_data r0 rs
    rw [tableFromHtml]
    have hpre1 : ("<table>".data).isPrefixOf (table_to_html (r0 :: rs)).data = true := by
      rw [hdata]; exact isPrefixOf_append_self _ _
    rw [hpre1]
    simp only [if_true]
    have hdrop : (table_to_html (r0 :: rs)).data.drop 7 =
        rowBlock thOpen thClose (r0.map String.data) ++
          (rowsFlatTd (rs.map (fun r => r.map String.data)) ++ "</table>".data) := by
      rw [hdata, show (7 : Nat) = ("<table>".data).length from rfl, List.drop_left]
    rw [hdrop]
    have hsfx : trOpen.isPrefixOf ("</table>".data) = false := by decide
    have hr0 : ∀ x ∈ r0.map String.data, '<' ∉ x := by
      intro x hx
      obtain ⟨cell, hcell, rfl⟩ := List.mem_map.mp hx
      exact hclean r0 (by simp) cell hcell
    have hrs2 : ∀ r ∈ rs.map (fun r => r.map String.data), ∀ x ∈ r, '<' ∉ x := by
      intro r hr x hx
      obtain ⟨row, hrow, rfl⟩ := List.mem_map.mp hr
      obtain ⟨cell, hcell, rfl⟩ := List.mem_map.mp hx
      exact hclean row (by simp [hrow]) cell hcell
    have hfuel : (rowBlock thOpen thClose (r0.map String.data) ++
        rowsFlatTd (rs.map (fun r => r.map String.data))).length ≤
        (table_to_html (r0 :: rs)).data.length := by
      rw [hdata]
      simp [List.length_append]
      omega
    rw [parseRows_all _ _ _ hsfx hr0 hrs2 _ hfuel]
    have hmk : ∀ s : String, String.mk s.data = s := fun _ => rfl
    simp [List.map_map, Function.comp_def, hmk]

end WordAnalysis

namespace WordAnalysis

/-! ## Association-list lemmas (Python dict semantics) -/

theorem lookup_setA {κ α : Type} [BEq κ] (m : List (κ × α)) (k : κ) (v : α)
    (k' : κ) : (setA m k v).lookup k' = if k' == k then some v else m.lookup k' := by
  cases h : k' == k <;> simp [setA, List.lookup, h]

theorem setA_ne_nil {κ α : Type} [BEq κ] (m : List (κ × α)) (k : κ) (v : α) :
    setA m k v ≠ [] := by
  simp [setA]

theorem lookup_filter_keep {α : Type} (m : List (Nat × α)) (p : Nat × α → Bool)
    (k : Nat) (hp : ∀ v, p (k, v) = true) : (m.filter p).lookup k = m.lookup k := by
  induction m with
  | nil => rfl
  | cons kv t ih =>
    obtain ⟨k₁, v₁⟩ := kv
    by_cases hk : k = k₁
    · subst hk
      simp [List.filter, hp v₁, List.lookup, ih]
    · by_cases hkeep : p (k₁, v₁) = true
      · have hb : (k == k₁) = false := by simpa using hk
        simp only [List.filter, hkeep, List.lookup, hb]
        exact ih
      · have hf : p (k₁, v₁) = false := by simpa using hkeep
        have hb : (k == k₁) = false := by simpa using hk
        simp only [List.filter, hf, List.lookup, hb]
        exact ih

theorem lookup_filter_drop {α : Type} (m : List (Nat × α)) (p : Nat × α → Bool)
    (k : Nat) (hp : ∀ v, p (k, v) = false) : (m.filter p).lookup k = none := by
  induction m with
  | nil => rfl
  | cons kv t ih =>
    obtain ⟨k₁, v₁⟩ := kv
    by_cases hk : k = k₁
    · subst hk
      simp only [List.filter, hp v₁]
      exact ih
    · by_cases hkeep : p (k₁, v₁) = true
      · have hb : (k == k₁) = false := by simpa using hk
        simp only [List.filter, hkeep, List.lookup, hb]
        exact ih
      · have hf : p (k₁, v₁) = false := by simpa using hkeep
        simp only [List.filter, hf]
        exact ih

/-! ## The level-counter advance of the list tracker

`parse_by_heading`'s list branch deletes the counters of levels in
`range(level+1, 9)`, then increments the counter at `level`
(initializing it to 0 on first touch). The following frame lemma is the
§4.2 `advance` contract: shallower levels survive, strictly deeper
levels (below 9) are cleared, and the touched level holds the new count.
-/

theorem advanceCounters_frame (cnt : List (Nat × Nat)) (lvl : Nat) :
    (∀ l, l < lvl →
      (setA (cnt.filter (fun kv => !(decide (lvl < kv.1) && decide (kv.1 < 9))))
        lvl (((cnt.filter (fun kv =>
          !(decide (lvl < kv.1) && decide (kv.1 < 9)))).lookup lvl).getD 0 + 1)).lookup l
        = cnt.lookup l) ∧
    (∀ l, lvl < l → l < 9 →
      (setA (cnt.filter (fun kv => !(decide (lvl < kv.1) && decide (kv.1 < 9))))
        lvl (((cnt.filter (fun kv =>
          !(decide (lvl < kv.1) && decide (kv.1 < 9)))).lookup lvl).getD 0 + 1)).lookup l
        = none) ∧
    (setA (cnt.filter (fun kv => !(decide (lvl < kv.1) && decide (kv.1 < 9))))
        lvl (((cnt.filter (fun kv =>
          !(decide (lvl < kv.1) && decide (kv.1 < 9)))).lookup lvl).getD 0 + 1)).lookup lvl
      = some (((cnt.filter (fun kv =>
          !(decide (lvl < kv.1) && decide (kv.1 < 9)))).lookup lvl).getD 0 + 1) := by
  refine ⟨?_, ?_, ?_⟩
  · intro l hl
    rw [lookup_setA]
    rw [if_neg (by simp; omega)]
    exact lookup_filter_keep cnt _ l (fun v => by simp; omega)
  · intro l hl hl9
    rw [lookup_setA]
    rw [if_neg (by simp; omega)]
    exact lookup_filter_drop cnt _ l (fun v => by simp; omega)
  · rw [lookup_setA]
    simp

end WordAnalysis

namespace WordAnalysis

/-! ## The heading replay machine

The number path and parent reference of every section produced by
`parse_by_heading` depend only on the sequence of classified heading
levels: non-heading elements touch neither the per-level counters nor
the heading context. `replayHeadings` replays the heading branch of the
body loop on that level sequence alone, and `parse_by_heading_pp` proves
the correspondence.
-/

/-- The heading levels the body loop classifies, in document order
(skipped blank paragraphs are not looked at). -/
def headingLevels (body : List BodyElem) : List Nat :=
  body.filterMap (fun e =>
    match e with
    | .para p =>
      if pyStrip p.text = "" ∧ ¬p.hasDrawing then none
      else getHeadingLevel p.style
    | .table _ => none)

/-- The (number path, parent number path) trace of the heading branch. -/
def replayHeadings (counters : Nat → Nat) (ctx : List (String × String)) :
    List Nat → List (String × Option String)
  | [] => []
  | hl :: rest =>
    let counters' := fun l =>
      if l = hl then counters hl + 1
      else if hl < l ∧ l < max_heading_level + 1 then 0
      else counters l
    let numberPath := joinSep "."
      ((List.range' 1 hl).map (fun l => natStr (counters' l)))
    let parentPath := if 1 < hl then ctx.lookup (getHeadingLabel (hl - 1)) else none
    let ctx1 := setA ctx (getHeadingLabel hl) numberPath
    let ctx2 := (List.range' (hl + 1) (max_heading_level - hl)).foldl
      (fun c l => c.filter (fun kv => kv.1 ≠ getHeadingLabel l)) ctx1
    (numberPath, parentPath) :: replayHeadings counters' ctx2 rest

/-- Number path and parent path of a section. -/
def secPP (s : ParsedSection) : String × Option String :=
  (s.number_path, s.parent.map (fun pr => pr.number_path))

/-- The heading context restricted to number paths. -/
def ctxPaths (m : List (String × (String × String))) : List (String × String) :=
  m.map (fun kv => (kv.1, kv.2.1))

theorem ctxPaths_lookup (m : List (String × (String × String))) (k : String) :
    (ctxPaths m).lookup k = (m.lookup k).map (fun v => v.1) := by
  induction m with
  | nil => rfl
  | cons kv t ih =>
    cases h : k == kv.1
    · show List.lookup k ((kv.1, kv.2.1) :: ctxPaths t) = _
      simp [List.lookup, h, ih]
    · show List.lookup k ((kv.1, kv.2.1) :: ctxPaths t) = _
      simp [List.lookup, h]

theorem ctxPaths_setA (m : List (String × (String × String))) (k : String)
    (v : String × String) : ctxPaths (setA m k v) = setA (ctxPaths m) k v.1 := by
  simp [ctxPaths, setA]

theorem ctxPaths_filter (m : List (String × (String × String))) (lab : String) :
    ctxPaths (m.filter (fun kv => kv.1 ≠ lab)) =
      (ctxPaths m).filter (fun kv => kv.1 ≠ lab) := by
  induction m with
  | nil => rfl
  | cons kv t ih =>
    by_cases h : kv.1 = lab
    · rw [List.filter_cons_of_neg (by simp [h])]
      rw [show ctxPaths (kv :: t) = (kv.1, kv.2.1) :: ctxPaths t from rfl]
      rw [List.filter_cons_of_neg (by simp [h])]
      exact ih
    · rw [List.filter_cons_of_pos (by simp [h])]
      rw [show ctxPaths (kv :: t) = (kv.1, kv.2.1) :: ctxPaths t from rfl]
      rw [List.filter_cons_of_pos (by simp [h])]
      rw [show ctxPaths (kv :: t.filter (fun kv => kv.1 ≠ lab)) =
        (kv.1, kv.2.1) :: ctxPaths (t.filter (fun kv => kv.1 ≠ lab)) from rfl]
      rw [ih]

theorem ctxPaths_foldl_filter (labs : List Nat)
    (m : List (String × (String × String))) :
    ctxPaths (labs.foldl
      (fun ctx l => ctx.filter (fun kv => kv.1 ≠ getHeadingLabel l)) m) =
    labs.foldl (fun ctx l => ctx.filter (fun kv => kv.1 ≠ getHeadingLabel l))
      (ctxPaths m) := by
  induction labs generalizing m with
  | nil => rfl
  | cons lab rest ih => simp only [List.foldl_cons, ih, ctxPaths_filter]

theorem attachImages_pp (imgs : List RenderedImage) :
    ∀ (sec : ParsedSection), secPP (attachImages sec imgs) = secPP sec := by
  induction imgs with
  | nil => intro sec; rfl
  | cons img rest ih =>
    intro sec
    have h1 : attachImages sec (img :: rest) =
        attachImages (if img.filename ∈ sec.images.map (fun i => i.filename) then sec
          else { sec with images := sec.images ++ [img],
                          content_items := sec.content_items ++ [.image img] }) rest := by
      rw [attachImages, attachImages, List.foldl_cons]
    rw [h1]
    by_cases h : img.filename ∈ sec.images.map (fun i => i.filename)
    · rw [if_pos h]
      exact ih sec
    · rw [if_neg h]
      rw [ih _]
      rfl

end WordAnalysis

namespace WordAnalysis

/-- The (path, parent path) view of the open section, if any. -/
def curPP (st : HState) : List (String × Option String) :=
  match st.current with | some s => [secPP s] | none => []

theorem updateSectionContent_pp (ls : ListState) (text : String)
    (li : Option ListInfo) (sec : ParsedSection) :
    secPP (updateSectionContent ls text li sec).1 = secPP sec ∧
    (updateSectionContent ls text li sec).1.images = sec.images := by
  rcases li with _ | info <;> by_cases h : text = "" <;>
    simp [updateSectionContent, h, secPP]

theorem step_neutral (doc : DocModel) (imgs : List RenderedImage) (st : HState)
    (e : BodyElem)
    (he : match e with
          | .para p => (pyStrip p.text = "" ∧ ¬p.hasDrawing) ∨
              getHeadingLevel p.style = none
          | .table _ => True) :
    (processElement doc imgs st e).sections = st.sections ∧
    curPP (processElement doc imgs st e) = curPP st ∧
    (processElement doc imgs st e).counters = st.counters ∧
    (processElement doc imgs st e).context = st.context := by
  cases e with
  | table grid =>
    cases hpt : processTableAndReturn grid with
    | none => cases hcur : st.current <;> simp [processElement, hpt, hcur, curPP]
    | some rt =>
      cases hcur : st.current with
      | none => simp [processElement, hpt, hcur, curPP]
      | some sec => simp [processElement, hpt, hcur, curPP, secPP]
  | para p =>
    by_cases hblank : pyStrip p.text = "" ∧ ¬p.hasDrawing
    · simp [processElement, hblank]
    · rcases he with he | he
      · exact absurd he hblank
      · simp only [processElement]
        rw [if_neg hblank, he]
        cases hcur : st.current with
        | none => simp [hcur, curPP]
        | some sec =>
          simp only [hcur, curPP]
          refine ⟨by trivial, ?_, by trivial, by trivial⟩
          rw [attachImages_pp, (updateSectionContent_pp _ _ _ _).1]

theorem step_heading (doc : DocModel) (imgs : List RenderedImage) (st : HState)
    (p : Para) (hl : Nat)
    (hnb : ¬(pyStrip p.text = "" ∧ ¬p.hasDrawing))
    (hhl : getHeadingLevel p.style = some hl) :
    (processElement doc imgs st (.para p)).sections =
      st.sections ++ (match st.current with | some c => [c] | none => []) ∧
    curPP (processElement doc imgs st (.para p)) =
      [(joinSep "." ((List.range' 1 hl).map (fun l => natStr
          (if l = hl then st.counters hl + 1
           else if hl < l ∧ l < max_heading_level + 1 then 0
           else st.counters l))),
        if 1 < hl then (ctxPaths st.context).lookup (getHeadingLabel (hl - 1))
        else none)] ∧
    (processElement doc imgs st (.para p)).counters =
      (fun l => if l = hl then st.counters hl + 1
                else if hl < l ∧ l < max_heading_level + 1 then 0
                else st.counters l) ∧
    ctxPaths (processElement doc imgs st (.para p)).context =
      (List.range' (hl + 1) (max_heading_level - hl)).foldl
        (fun c l => c.filter (fun kv => kv.1 ≠ getHeadingLabel l))
        (setA (ctxPaths st.context) (getHeadingLabel hl)
          (joinSep "." ((List.range' 1 hl).map (fun l => natStr
            (if l = hl then st.counters hl + 1
             else if hl < l ∧ l < max_heading_level + 1 then 0
             else st.counters l))))) := by
  simp only [processElement]
  rw [if_neg hnb, hhl]
  refine ⟨?_, ?_, ?_, ?_⟩
  · cases hcur : st.current <;> simp [finalizeCurrent, hcur]
  · cases hcur : st.current <;>
    · simp only [curPP, finalizeCurrent, hcur, secPP]
      by_cases h1 : 1 < hl
      · cases hlk : st.context.lookup (getHeadingLabel (hl - 1)) <;>
          simp [h1, hlk, ctxPaths_lookup]
      · simp [h1]
  · cases hcur : st.current <;> simp [finalizeCurrent, hcur]
  · cases hcur : st.current <;>
    · simp only [finalizeCurrent, hcur]
      rw [ctxPaths_foldl_filter, ctxPaths_setA]

theorem headingLevels_table (grid : List (List String)) (rest : List BodyElem) :
    headingLevels (.table grid :: rest) = headingLevels rest := by
  simp [headingLevels]

theorem headingLevels_blank (p : Para) (rest : List BodyElem)
    (h : pyStrip p.text = "" ∧ ¬p.hasDrawing) :
    headingLevels (.para p :: rest) = headingLevels rest := by
  simp only [headingLevels, List.filterMap_cons, if_pos h]

theorem headingLevels_not_heading (p : Para) (rest : List BodyElem)
    (hnb : ¬(pyStrip p.text = "" ∧ ¬p.hasDrawing))
    (hhl : getHeadingLevel p.style = none) :
    headingLevels (.para p :: rest) = headingLevels rest := by
  simp only [headingLevels, List.filterMap_cons, if_neg hnb, hhl]

theorem headingLevels_heading (p : Para) (rest : List BodyElem) (hl : Nat)
    (hnb : ¬(pyStrip p.text = "" ∧ ¬p.hasDrawing))
    (hhl : getHeadingLevel p.style = some hl) :
    headingLevels (.para p :: rest) = hl :: headingLevels rest := by
  simp only [headingLevels, List.filterMap_cons, if_neg hnb, hhl]

/-- The (path, parent path) trace of `parse_by_heading` is the heading
replay of the body's classified heading levels. -/
theorem parse_pp_general (doc : DocModel) (imgs : List RenderedImage) :
    ∀ (body : List BodyElem) (st : HState),
    ((finalizeCurrent (body.foldl (processElement doc imgs) st)).sections).map secPP =
      st.sections.map secPP ++ curPP st ++
      replayHeadings st.counters (ctxPaths st.context) (headingLevels body) := by
  intro body
  induction body with
  | nil =>
    intro st
    cases hcur : st.current <;>
      simp [finalizeCurrent, hcur, replayHeadings, headingLevels, curPP]
  | cons e rest ih =>
    intro st
    rw [List.foldl_cons, ih (processElement doc imgs st e)]
    cases e with
    | table grid =>
      obtain ⟨h1, h2, h3, h4⟩ := step_neutral doc imgs st (.table grid) (by simp)
      rw [h1, h2, h3, h4, headingLevels_table]
    | para p =>
      by_cases hnb : pyStrip p.text = "" ∧ ¬p.hasDrawing
      · obtain ⟨h1, h2, h3, h4⟩ :=
          step_neutral doc imgs st (.para p) (Or.inl hnb)
        rw [h1, h2, h3, h4, headingLevels_blank p rest hnb]
      · cases hhl : getHeadingLevel p.style with
        | none =>
          obtain ⟨h1, h2, h3, h4⟩ :=
            step_neutral doc imgs st (.para p) (Or.inr hhl)
          rw [h1, h2, h3, h4, headingLevels_not_heading p rest hnb hhl]
        | some hl =>
          obtain ⟨h1, h2, h3, h4⟩ := step_heading doc imgs st p hl hnb hhl
          rw [h1, h2, h3, h4, headingLevels_heading p rest hl hnb hhl]
          rw [replayHeadings]
          cases hcur : st.current <;> simp [hcur, curPP, List.append_assoc]

end WordAnalysis

namespace WordAnalysis

/-! ## Section count and discard behaviour (heading-style mode) -/

theorem replayHeadings_length (levels : List Nat) :
    ∀ (counters : Nat → Nat) (ctx : List (String × String)),
    (replayHeadings counters ctx levels).length = levels.length := by
  induction levels with
  | nil => intro counters ctx; rfl
  | cons hl rest ih => intro counters ctx; simp [replayHeadings, ih]

/-- A body element the loop classifies as a heading: a paragraph that is
not skipped as blank and whose style matches a heading level. -/
def isFoundHeading (e : BodyElem) : Bool :=
  match e with
  | .para p => !(decide (pyStrip p.text = "" ∧ ¬p.hasDrawing)) &&
      (getHeadingLevel p.style).isSome
  | .table _ => false

theorem headingLevels_length_countP (body : List BodyElem) :
    (headingLevels body).length = body.countP isFoundHeading := by
  induction body with
  | nil => rfl
  | cons e rest ih =>
    cases e with
    | table grid =>
      rw [headingLevels_table]
      simp [List.countP_cons, isFoundHeading, ih]
    | para p =>
      by_cases hnb : pyStrip p.text = "" ∧ ¬p.hasDrawing
      · rw [headingLevels_blank p rest hnb]
        simp [List.countP_cons, isFoundHeading, hnb, ih]
      · cases hhl : getHeadingLevel p.style with
        | none =>
          rw [headingLevels_not_heading p rest hnb hhl]
          simp [List.countP_cons, isFoundHeading, hnb, hhl, ih]
        | some hl =>
          rw [headingLevels_heading p rest hl hnb hhl]
          simp [List.countP_cons, isFoundHeading, hnb, hhl, ih]
          rw [if_pos (by tauto)]

theorem parse_by_heading_length (doc : DocModel) :
    (parse_by_heading doc).length = doc.body.countP isFoundHeading := by
  have h := parse_pp_general doc (extractAllImages doc.rels) doc.body initialHState
  have hlen := congrArg List.length h
  rw [List.length_map] at hlen
  rw [parse_by_heading]
  rw [hlen]
  simp [initialHState, curPP, ctxPaths, replayHeadings_length,
    headingLevels_length_countP]

theorem step_discard (doc : DocModel) (imgs : List RenderedImage) (st : HState)
    (e : BodyElem) (hcur : st.current = none)
    (hhead : isFoundHeading e = false) :
    (processElement doc imgs st e).sections = st.sections ∧
    (processElement doc imgs st e).current = none := by
  cases e with
  | table grid =>
    cases hpt : processTableAndReturn grid <;>
      simp [processElement, hpt, hcur]
  | para p =>
    by_cases hnb : pyStrip p.text = "" ∧ ¬p.hasDrawing
    · simp [processElement, hnb, hcur]
    · have hnone : getHeadingLevel p.style = none := by
        cases hopt : getHeadingLevel p.style with
        | none => rfl
        | some hl =>
          exfalso
          simp [isFoundHeading, hopt] at hhead
          simp_all
      simp only [processElement]
      rw [if_neg hnb, hnone, hcur]
      exact ⟨rfl, rfl⟩

end WordAnalysis

namespace WordAnalysis

/-! ## Single ownership of images -/

def sectionImageFiles (s : ParsedSection) : List String :=
  s.images.map (fun i => i.filename)

def allImageFiles (st : HState) : List String :=
  (st.sections.map sectionImageFiles).flatten ++
  (match st.current with | some s => sectionImageFiles s | none => [])

/-- The image entries of a section's ordered content. -/
def contentImages (s : ParsedSection) : List RenderedImage :=
  s.content_items.filterMap
    (fun ci => match ci with | .image i => some i | _ => none)

/-- Loop invariant: image filenames across all sections are pairwise
distinct and recorded in the assigned set, and every section's ordered
content carries exactly its images. -/
def ImgInv (st : HState) : Prop :=
  (allImageFiles st).Nodup ∧
  (∀ f ∈ allImageFiles st, f ∈ st.assigned) ∧
  (∀ s ∈ st.sections, contentImages s = s.images) ∧
  (∀ s, st.current = some s → contentImages s = s.images)

theorem collectImages_spec (relMap : List (String × RenderedImage)) :
    ∀ (blips : List String) (assigned : List String),
    ((collectImages relMap assigned blips).1.map (fun i => i.filename)).Nodup ∧
    (∀ f ∈ (collectImages relMap assigned blips).1.map (fun i => i.filename),
      f ∉ assigned ∧ f ∈ (collectImages relMap assigned blips).2) ∧
    (∀ f ∈ assigned, f ∈ (collectImages relMap assigned blips).2) := by
  intro blips
  induction blips with
  | nil => intro assigned; simp [collectImages]
  | cons embed rest ih =>
    intro assigned
    cases hlk : relMap.lookup embed with
    | none =>
      simp only [collectImages, hlk]
      exact ih assigned
    | some img =>
      by_cases hmem : img.filename ∈ assigned
      · simp only [collectImages, hlk, if_pos hmem]
        exact ih assigned
      · simp only [collectImages, hlk, if_neg hmem]
        obtain ⟨ih1, ih2, ih3⟩ := ih (img.filename :: assigned)
        refine ⟨?_, ?_, ?_⟩
        · simp only [List.map_cons, List.nodup_cons]
          refine ⟨fun hin => ?_, ih1⟩
          exact (ih2 _ hin).1 (List.mem_cons_self _ _)
        · intro f hf
          simp only [List.map_cons, List.mem_cons] at hf
          rcases hf with rfl | hf
          · exact ⟨hmem, ih3 _ (List.mem_cons_self _ _)⟩
          · obtain ⟨h1, h2⟩ := ih2 f hf
            exact ⟨fun hin => h1 (List.mem_cons_of_mem _ hin), h2⟩
        · intro f hf
          exact ih3 f (List.mem_cons_of_mem _ hf)

theorem attachImages_spec (imgs : List RenderedImage) :
    ∀ (sec : ParsedSection), (sectionImageFiles sec).Nodup →
    (sectionImageFiles (attachImages sec imgs)).Nodup ∧
    (∀ f ∈ sectionImageFiles (attachImages sec imgs),
      f ∈ sectionImageFiles sec ∨ f ∈ imgs.map (fun i => i.filename)) := by
  induction imgs with
  | nil => intro sec h; exact ⟨h, fun f hf => Or.inl hf⟩
  | cons img rest ih =>
    intro sec h
    have h1 : attachImages sec (img :: rest) =
        attachImages (if img.filename ∈ sec.images.map (fun i => i.filename) then sec
          else { sec with images := sec.images ++ [img],
                          content_items := sec.content_items ++ [.image img] }) rest := by
      rw [attachImages, attachImages, List.foldl_cons]
    rw [h1]
    by_cases hmem : img.filename ∈ sec.images.map (fun i => i.filename)
    · rw [if_pos hmem]
      obtain ⟨ha, hb⟩ := ih sec h
      exact ⟨ha, fun f hf => (hb f hf).imp id (List.mem_cons_of_mem _)⟩
    · rw [if_neg hmem]
      have hnodup : (sectionImageFiles
          { sec with
            images := sec.images ++ [img],
            content_items := sec.content_items ++ [ContentItem.image img] }).Nodup := by
        simp only [sectionImageFiles, List.map_append, List.map_cons, List.map_nil]
        rw [List.nodup_append]
        refine ⟨h, by simp, ?_⟩
        intro f hf
        simp only [List.mem_cons, List.not_mem_nil, or_false]
        intro heq
        exact hmem (heq ▸ hf)
      obtain ⟨ha, hb⟩ := ih _ hnodup
      refine ⟨ha, fun f hf => ?_⟩
      rcases hb f hf with hf1 | hf1
      · simp only [sectionImageFiles, List.map_append, List.map_cons, List.map_nil,
          List.mem_append, List.mem_cons, List.not_mem_nil, or_false] at hf1
        rcases hf1 with hf1 | hf1
        · exact Or.inl hf1
        · exact Or.inr (by simp [hf1])
      · exact Or.inr (List.mem_cons_of_mem _ hf1)

theorem attachImages_content (imgs : List RenderedImage) :
    ∀ (sec : ParsedSection), contentImages sec = sec.images →
    contentImages (attachImages sec imgs) = (attachImages sec imgs).images := by
  induction imgs with
  | nil => intro sec h; exact h
  | cons img rest ih =>
    intro sec h
    have h1 : attachImages sec (img :: rest) =
        attachImages (if img.filename ∈ sec.images.map (fun i => i.filename) then sec
          else { sec with images := sec.images ++ [img],
                          content_items := sec.content_items ++ [.image img] }) rest := by
      rw [attachImages, attachImages, List.foldl_cons]
    rw [h1]
    by_cases hmem : img.filename ∈ sec.images.map (fun i => i.filename)
    · rw [if_pos hmem]; exact ih sec h
    · rw [if_neg hmem]
      apply ih
      simp only [contentImages, List.filterMap_append] at *
      simp [h, contentImages]

theorem updateSectionContent_content (ls : ListState) (text : String)
    (li : Option ListInfo) (sec : ParsedSection)
    (h : contentImages sec = sec.images) :
    contentImages (updateSectionContent ls text li sec).1 =
      (updateSectionContent ls text li sec).1.images := by
  rcases li with _ | info <;> by_cases ht : text = "" <;>
    simp [updateSectionContent, ht, contentImages, List.filterMap_append] <;>
    simpa [contentImages] using h

end WordAnalysis

namespace WordAnalysis

theorem collectParaImages_spec (doc : DocModel) (imgs : List RenderedImage)
    (st : HState) (p : Para) :
    (((collectParaImages doc imgs st p).1.1.map (fun i => i.filename)).Nodup) ∧
    (∀ f ∈ (collectParaImages doc imgs st p).1.1.map (fun i => i.filename),
      f ∉ st.assigned ∧ f ∈ (collectParaImages doc imgs st p).1.2) ∧
    (∀ f ∈ st.assigned, f ∈ (collectParaImages doc imgs st p).1.2) := by
  cases hdraw : p.hasDrawing with
  | false => simp [collectParaImages, hdraw]
  | true =>
    simp only [collectParaImages, hdraw]
    simp only [true_and, if_true]
    exact collectImages_spec _ p.blips st.assigned

theorem step_heading_fields (doc : DocModel) (imgs : List RenderedImage)
    (st : HState) (p : Para) (hl : Nat)
    (hnb : ¬(pyStrip p.text = "" ∧ ¬p.hasDrawing))
    (hhl : getHeadingLevel p.style = some hl) :
    (processElement doc imgs st (.para p)).sections =
      st.sections ++ (match st.current with | some c => [c] | none => []) ∧
    (∃ ns, (processElement doc imgs st (.para p)).current = some ns ∧
      ns.images = [] ∧ ns.content_items = []) ∧
    (processElement doc imgs st (.para p)).assigned =
      (collectParaImages doc imgs st p).1.2 := by
  simp only [processElement]
  rw [if_neg hnb, hhl]
  cases hc : st.current <;>
    exact ⟨by simp [finalizeCurrent, hc], ⟨_, rfl, rfl, rfl⟩, rfl⟩

theorem step_content_fields (doc : DocModel) (imgs : List RenderedImage)
    (st : HState) (p : Para) (sec : ParsedSection)
    (hnb : ¬(pyStrip p.text = "" ∧ ¬p.hasDrawing))
    (hhl : getHeadingLevel p.style = none)
    (hc : st.current = some sec) :
    (processElement doc imgs st (.para p)).sections = st.sections ∧
    (processElement doc imgs st (.para p)).current =
      some (attachImages
        (updateSectionContent st.listState (pyStrip p.text)
          (getListInfo doc.numbering p) sec).1
        (collectParaImages doc imgs st p).1.1) ∧
    (processElement doc imgs st (.para p)).assigned =
      (collectParaImages doc imgs st p).1.2 := by
  simp only [processElement]
  rw [if_neg hnb, hhl, hc]
  exact ⟨rfl, rfl, rfl⟩

theorem step_none_fields (doc : DocModel) (imgs : List RenderedImage)
    (st : HState) (p : Para)
    (hnb : ¬(pyStrip p.text = "" ∧ ¬p.hasDrawing))
    (hhl : getHeadingLevel p.style = none)
    (hc : st.current = none) :
    (processElement doc imgs st (.para p)).sections = st.sections ∧
    (processElement doc imgs st (.para p)).current = none ∧
    (processElement doc imgs st (.para p)).assigned =
      (collectParaImages doc imgs st p).1.2 := by
  simp only [processElement]
  rw [if_neg hnb, hhl, hc]
  exact ⟨rfl, rfl, rfl⟩

theorem step_ImgInv (doc : DocModel) (imgs : List RenderedImage) (st : HState)
    (e : BodyElem) (h : ImgInv st) : ImgInv (processElement doc imgs st e) := by
  obtain ⟨hnd, hass, hsecs, hcur⟩ := h
  cases e with
  | table grid =>
    cases hpt : processTableAndReturn grid with
    | none =>
      cases hc : st.current <;> simp only [processElement, hpt, hc] <;>
        exact ⟨hnd, hass, hsecs, hcur⟩
    | some rt =>
      cases hc : st.current with
      | none =>
        simp only [processElement, hpt, hc]
        exact ⟨hnd, hass, hsecs, hcur⟩
      | some sec =>
        simp only [processElement, hpt, hc]
        have hall : allImageFiles { st with current := some { sec with
            content_items := sec.content_items ++ [ContentItem.table rt] } } =
            allImageFiles st := by
          simp [allImageFiles, hc, sectionImageFiles]
        refine ⟨hall ▸ hnd, fun f hf => hass f (hall ▸ hf), hsecs, ?_⟩
        intro s hs
        simp only [Option.some.injEq] at hs
        subst hs
        have := hcur sec hc
        simp only [contentImages, List.filterMap_append] at *
        simp [this]
  | para p =>
    by_cases hblank : pyStrip p.text = "" ∧ ¬p.hasDrawing
    · simp only [processElement]
      rw [if_pos hblank]
      exact ⟨hnd, hass, hsecs, hcur⟩
    · obtain ⟨hcol1, hcol2, hcol3⟩ := collectParaImages_spec doc imgs st p
      cases hhl : getHeadingLevel p.style with
      | some hl =>
        obtain ⟨hf1, ⟨ns, hf2, hni, hnc⟩, hf3⟩ :=
          step_heading_fields doc imgs st p hl hblank hhl
        have hall : allImageFiles (processElement doc imgs st (.para p)) =
            allImageFiles st := by
          simp only [allImageFiles, hf1, hf2, sectionImageFiles, hni,
            List.map_nil, List.map_append, List.flatten_append]
          cases hc : st.current <;> simp [hc, sectionImageFiles]
        refine ⟨?_, ?_, ?_, ?_⟩
        · rw [hall]; exact hnd
        · intro f hf
          rw [hf3]
          exact hcol3 f (hass f (hall ▸ hf))
        · intro s hs
          rw [hf1] at hs
          rcases List.mem_append.mp hs with hs | hs
          · exact hsecs s hs
          · cases hc : st.current with
            | none => rw [hc] at hs; simp at hs
            | some c =>
              rw [hc] at hs
              simp only [List.mem_singleton] at hs
              subst hs
              exact hcur s hc
        · intro s hs
          rw [hf2] at hs
          injection hs with hs
          subst hs
          simp [contentImages, hnc, hni]
      | none =>
        cases hc : st.current with
        | none =>
          obtain ⟨hf1, hf2, hf3⟩ := step_none_fields doc imgs st p hblank hhl hc
          have hall : allImageFiles (processElement doc imgs st (.para p)) =
              allImageFiles st := by
            simp [allImageFiles, hf1, hf2, hc]
          refine ⟨hall ▸ hnd, ?_, ?_, ?_⟩
          · intro f hf
            rw [hf3]
            exact hcol3 f (hass f (hall ▸ hf))
          · intro s hs; rw [hf1] at hs; exact hsecs s hs
          · intro s hs; rw [hf2] at hs; cases hs
        | some sec =>
          obtain ⟨hf1, hf2, hf3⟩ :=
            step_content_fields doc imgs st p sec hblank hhl hc
          have hsecfiles : sectionImageFiles
              (updateSectionContent st.listState (pyStrip p.text)
                (getListInfo doc.numbering p) sec).1 = sectionImageFiles sec := by
            simp [sectionImageFiles,
              (updateSectionContent_pp st.listState (pyStrip p.text)
                (getListInfo doc.numbering p) sec).2]
          have hsplit : allImageFiles st =
              (st.sections.map sectionImageFiles).flatten ++ sectionImageFiles sec := by
            simp [allImageFiles, hc]
          rw [hsplit] at hnd
          rw [List.nodup_append] at hnd
          obtain ⟨hnd1, hnd2, hdisj⟩ := hnd
          obtain ⟨hat1, hat2⟩ := attachImages_spec
            ((collectParaImages doc imgs st p).1.1)
            ((updateSectionContent st.listState (pyStrip p.text)
              (getListInfo doc.numbering p) sec).1) (hsecfiles ▸ hnd2)
          have hattach : ∀ f ∈ sectionImageFiles (attachImages
              (updateSectionContent st.listState (pyStrip p.text)
                (getListInfo doc.numbering p) sec).1
              (collectParaImages doc imgs st p).1.1),
              f ∈ sectionImageFiles sec ∨
              f ∈ (collectParaImages doc imgs st p).1.1.map (fun i => i.filename) := by
            intro f hf
            rcases hat2 f hf with hf1 | hf1
            · exact Or.inl (hsecfiles ▸ hf1)
            · exact Or.inr hf1
          have hallsplit : allImageFiles (processElement doc imgs st (.para p)) =
              (st.sections.map sectionImageFiles).flatten ++
              sectionImageFiles (attachImages
                (updateSectionContent st.listState (pyStrip p.text)
                  (getListInfo doc.numbering p) sec).1
                (collectParaImages doc imgs st p).1.1) := by
            simp [allImageFiles, hf1, hf2]
          refine ⟨?_, ?_, ?_, ?_⟩
          · rw [hallsplit, List.nodup_append]
            refine ⟨hnd1, hat1, ?_⟩
            intro f hfin hfat
            rcases hattach f hfat with hf' | hf'
            · exact hdisj hfin hf'
            · have hfass : f ∈ st.assigned := by
                apply hass
                rw [hsplit]
                exact List.mem_append.mpr (Or.inl hfin)
              exact (hcol2 f hf').1 hfass
          · intro f hf
            rw [hf3]
            rw [hallsplit] at hf
            rcases List.mem_append.mp hf with hf' | hf'
            · apply hcol3
              apply hass
              rw [hsplit]
              exact List.mem_append.mpr (Or.inl hf')
            · rcases hattach f hf' with hf'' | hf''
              · apply hcol3
                apply hass
                rw [hsplit]
                exact List.mem_append.mpr (Or.inr hf'')
              · exact (hcol2 f hf'').2
          · intro s hs; rw [hf1] at hs; exact hsecs s hs
          · intro s hs
            rw [hf2] at hs
            injection hs with hs
            subst hs
            exact attachImages_content _ _
              (updateSectionContent_content _ _ _ _ (hcur sec hc))

theorem foldl_ImgInv (doc : DocModel) (imgs : List RenderedImage) :
    ∀ (body : List BodyElem) (st : HState), ImgInv st →
    ImgInv (body.foldl (processElement doc imgs) st) := by
  intro body
  induction body with
  | nil => intro st h; exact h
  | cons e rest ih =>
    intro st h
    rw [List.foldl_cons]
    exact ih _ (step_ImgInv doc imgs st e h)

/-- Across the whole parse, every image filename appears in at most one
section, and in each section the ordered content's image items are
exactly the section's images. -/
theorem parse_by_heading_images (doc : DocModel) :
    (((parse_by_heading doc).map sectionImageFiles).flatten).Nodup ∧
    ∀ s ∈ parse_by_heading doc, contentImages s = s.images := by
  have hinit : ImgInv initialHState := by
    refine ⟨by simp [allImageFiles, initialHState], ?_, ?_, ?_⟩
    · intro f hf; simp [allImageFiles, initialHState] at hf
    · intro s hs; simp [initialHState] at hs
    · intro s hs; simp [initialHState] at hs
  obtain ⟨hnd, _, hsecs, hcur⟩ :=
    foldl_ImgInv doc (extractAllImages doc.rels) doc.body initialHState hinit
  rw [parse_by_heading]
  cases hc : (doc.body.foldl
      (processElement doc (extractAllImages doc.rels)) initialHState).current with
  | none =>
    constructor
    · simpa [allImageFiles, finalizeCurrent, hc] using hnd
    · intro s hs
      simp only [finalizeCurrent, hc] at hs
      exact hsecs s hs
  | some sec =>
    constructor
    · simp only [finalizeCurrent, hc, List.map_append, List.flatten_append]
      simpa [allImageFiles, hc, sectionImageFiles] using hnd
    · intro s hs
      simp only [finalizeCurrent, hc] at hs
      rcases List.mem_append.mp hs with hs | hs
      · exact hsecs s hs
      · simp only [List.mem_singleton] at hs
        subst hs
        exact hcur s hc

end WordAnalysis

namespace WordAnalysis

/-! ## Renderer heading clamp -/

theorem intStr_ofNat (n : Nat) : intStr (Int.ofNat n) = natStr n := by
  have h : ¬(Int.ofNat n < 0) := by
    rw [Int.ofNat_eq_natCast]
    omega
  rw [intStr, if_neg h]
  rfl

theorem renderHtml_append_single (bs : List JsonV) (b : JsonV) :
    renderHtml (bs ++ [b]) = renderHtml bs ++ renderBlock b := by
  apply String.ext
  simp [renderHtml, join_data, String.data_append]

theorem renderBlock_heading_block (text : String) (level : Nat) :
    renderBlock (.obj [("type", .str "heading"),
      ("attrs", .obj [("level", .num (Int.ofNat (min level 6)))]),
      ("content", .arr (if text = "" then []
        else [.obj [("type", .str "text"), ("text", .str text)]]))]) =
    "<h" ++ natStr (min level 6) ++ ">" ++ text ++
      "</h" ++ natStr (min level 6) ++ ">" := by
  have h0 : renderBlock (.obj [("type", .str "heading"),
      ("attrs", .obj [("level", .num (Int.ofNat (min level 6)))]),
      ("content", .arr (if text = "" then []
        else [.obj [("type", .str "text"), ("text", .str text)]]))]) =
      "<h" ++ intStr (Int.ofNat (min level 6)) ++ ">" ++
        extractText (if text = "" then []
          else [.obj [("type", .str "text"), ("text", .str text)]]) ++
        "</h" ++ intStr (Int.ofNat (min level 6)) ++ ">" := rfl
  rw [h0, intStr_ofNat]
  by_cases h : text = ""
  · rw [if_pos h, h]
    rfl
  · rw [if_neg h]
    have : extractText [.obj [("type", .str "text"), ("text", .str text)]] = text := by
      show String.join [text] = text
      apply String.ext
      simp [join_data]
    rw [this]

/-! ## Blank-paragraph frame and list-state characterization -/

theorem updateSectionContent_empty (ls : ListState) (li : Option ListInfo)
    (sec : ParsedSection) : updateSectionContent ls "" li sec = (sec, ls) := by
  cases li <;> simp [updateSectionContent]

theorem updateSectionContent_reset (ls : ListState) (text : String)
    (sec : ParsedSection) (h : text ≠ "") :
    (updateSectionContent ls text none sec).2 = ({} : ListState) := by
  simp [updateSectionContent, h]

theorem updateSectionContent_list_counters (ls : ListState) (text : String)
    (info : ListInfo) (sec : ParsedSection) (h : text ≠ "") :
    (updateSectionContent ls text (some info) sec).2.counters ≠ [] := by
  by_cases hnew : ls.num_id ≠ some info.num_id ∨ ls.list_type ≠ some info.type <;>
    simp [updateSectionContent, h, hnew, setA]

theorem processElement_skip (doc : DocModel) (imgs : List RenderedImage)
    (st : HState) (p : Para) (h1 : pyStrip p.text = "")
    (h2 : p.hasDrawing = false) :
    processElement doc imgs st (.para p) = st := by
  simp only [processElement]
  rw [if_pos ⟨h1, by simp [h2]⟩]

end WordAnalysis

namespace WordAnalysis

/-! ## Example documents for the testable properties -/

def exampleDocC1 : DocModel :=
  { body := [.para { style := some "Heading 1", text := "Intro" },
             .para { style := some "Heading 2", text := "Background" },
             .para { style := some "Heading 2", text := "Methods" },
             .para { style := some "Heading 1", text := "Results" }] }

def exampleDefsC3 : NumberingDefs :=
  { abstractNums := [(0, [(0, { ilvl := 0 }), (1, { ilvl := 1 })])],
    numToAbstract := [(1, 0)] }

/-- An ordered-list paragraph at the given indent level (list id 1). -/
def listItem (lvl : Nat) (t : String) : BodyElem :=
  .para { text := t, numPr := some (some lvl, some 1) }

def exampleDocC3 : DocModel :=
  { numbering := exampleDefsC3,
    body := [.para { style := some "Heading 1", text := "T" },
             listItem 0 "a", listItem 0 "b", listItem 0 "c",
             listItem 1 "d", listItem 1 "e", listItem 0 "f"] }

def exampleDocC4 : DocModel :=
  { body := [.para { style := some "Heading 1", text := "T" },
             listItem 0 "x", listItem 0 "y", listItem 0 "z"] }

def exampleRelsC5 : List Rel :=
  [{ rId := "rId1", targetRef := "media/image1.png",
     mime := "image/png", b64 := "AAA" },
   { rId := "rId2", targetRef := "media/image2.png",
     mime := "image/png", b64 := "BBB" }]

def exampleDocC5 : DocModel :=
  { rels := exampleRelsC5,
    body := [.para { style := some "Heading 1", text := "T" },
             .para { text := "pic", hasDrawing := true,
                     blips := ["rId1", "rId2"] }] }

def exampleDocC10 : DocModel :=
  { numbering := exampleDefsC3,
    body := [.para { style := some "Heading 1", text := "T" },
             listItem 0 "a", .para { text := "   " }, listItem 0 "b"] }

/-! ## The claims -/

/-- C1: in heading-style mode, for every document whose body contains
exactly four heading paragraphs classified at levels 1, 2, 2, 1 in that
order, the sections' number paths are "1", "1.1", "1.2", "2" in document
order, and their parent references are absent, "1", "1", absent. -/
theorem claim_C1 (doc : DocModel) (h : headingLevels doc.body = [1, 2, 2, 1]) :
    (parse_by_heading doc).map (fun s => s.number_path) =
      ["1", "1.1", "1.2", "2"] ∧
    (parse_by_heading doc).map (fun s => s.parent.map (fun pr => pr.number_path)) =
      [none, some "1", some "1", none] := by
  have hpp := parse_pp_general doc (extractAllImages doc.rels) doc.body initialHState
  rw [h] at hpp
  have hval : replayHeadings initialHState.counters (ctxPaths initialHState.context)
      [1, 2, 2, 1] =
      [("1", none), ("1.1", some "1"), ("1.2", some "1"), ("2", none)] := by
    decide
  rw [hval] at hpp
  have hpb : (parse_by_heading doc).map secPP =
      [("1", none), ("1.1", some "1"), ("1.2", some "1"), ("2", none)] := by
    rw [parse_by_heading]
    rw [hpp]
    rfl
  constructor
  · have h1 : (parse_by_heading doc).map (fun s => s.number_path) =
        ((parse_by_heading doc).map secPP).map Prod.fst := by
      rw [List.map_map]; rfl
    rw [h1, hpb]
    rfl
  · have h2 : (parse_by_heading doc).map (fun s => s.parent.map (fun pr => pr.number_path)) =
        ((parse_by_heading doc).map secPP).map Prod.snd := by
      rw [List.map_map]; rfl
    rw [h2, hpb]
    rfl

theorem claim_C1_witness :
    headingLevels exampleDocC1.body = [1, 2, 2, 1] ∧
    (parse_by_heading exampleDocC1).map (fun s => s.number_path) =
      ["1", "1.1", "1.2", "2"] ∧
    (parse_by_heading exampleDocC1).map
      (fun s => s.parent.map (fun pr => pr.number_path)) =
      [none, some "1", some "1", none] := by
  have h := claim_C1 exampleDocC1 (by decide)
  exact ⟨by decide, h.1, h.2⟩

/-- C3: a list of 3 ordered items at level 0, then 2 at level 1, then 1
back at level 0, inside one section, is marked <1>, <2>, <3>, then
(indented) <1>, <2>, then <4>: the counter advance preserves shallower
levels and clears only strictly deeper ones. -/
theorem claim_C3 :
    (parse_by_heading exampleDocC3).map (fun s => s.marked_paragraphs) =
      [["<1> a", "<2> b", "<3> c", "  <1> d", "  <2> e", "<4> f"]] ∧
    (∀ (cnt : List (Nat × Nat)) (lvl l : Nat), l < lvl →
      (setA (cnt.filter (fun kv => !(decide (lvl < kv.1) && decide (kv.1 < 9))))
        lvl (((cnt.filter (fun kv =>
          !(decide (lvl < kv.1) && decide (kv.1 < 9)))).lookup lvl).getD 0 + 1)).lookup l
        = cnt.lookup l) ∧
    (∀ (cnt : List (Nat × Nat)) (lvl l : Nat), lvl < l → l < 9 →
      (setA (cnt.filter (fun kv => !(decide (lvl < kv.1) && decide (kv.1 < 9))))
        lvl (((cnt.filter (fun kv =>
          !(decide (lvl < kv.1) && decide (kv.1 < 9)))).lookup lvl).getD 0 + 1)).lookup l
        = none) :=
  ⟨by decide,
   fun cnt lvl l h => (advanceCounters_frame cnt lvl).1 l h,
   fun cnt lvl l h h9 => (advanceCounters_frame cnt lvl).2.1 l h h9⟩

theorem claim_C3_witness :
    (setA (([(0, 3), (2, 5)] : List (Nat × Nat)).filter
        (fun kv => !(decide (1 < kv.1) && decide (kv.1 < 9)))) 1
      (((([(0, 3), (2, 5)] : List (Nat × Nat)).filter
        (fun kv => !(decide (1 < kv.1) && decide (kv.1 < 9)))).lookup 1).getD 0 + 1)).lookup 0
      = some 3 ∧
    (setA (([(0, 3), (2, 5)] : List (Nat × Nat)).filter
        (fun kv => !(decide (1 < kv.1) && decide (kv.1 < 9)))) 1
      (((([(0, 3), (2, 5)] : List (Nat × Nat)).filter
        (fun kv => !(decide (1 < kv.1) && decide (kv.1 < 9)))).lookup 1).getD 0 + 1)).lookup 2
      = none :=
  ⟨(claim_C3.2.1 [(0, 3), (2, 5)] 1 0 (by decide)).trans (by decide),
   claim_C3.2.2 [(0, 3), (2, 5)] 1 2 (by decide) (by decide)⟩

/-- C4: with no numbering sub-part (empty numbering definitions), three
consecutive level-0 list paragraphs still get sequential decimal markers
<1>, <2>, <3> in heading mode, and the extractor's plain-decimal fallback
emits "1", "2", "3"; the parse is a total function, so the missing
metadata never surfaces as an error. -/
theorem claim_C4 :
    (parse_by_heading exampleDocC4).map (fun s => s.marked_paragraphs) =
      [["<1> x", "<2> y", "<3> z"]] ∧
    runExtractor NumberingDefs.empty ExtractorState.init
      [some (some 0, some 5), some (some 0, some 5), some (some 0, some 5)] =
      ["1", "2", "3"] :=
  ⟨by decide, by decide⟩

/-- C5: across a whole parse, every image filename lands in at most one
section and at most once there (global no-duplicates), the image items
of each section's ordered content are exactly its images, and a
paragraph with two distinct embedded images yields one image content
item for each. -/
theorem claim_C5 :
    (∀ doc : DocModel,
      (((parse_by_heading doc).map sectionImageFiles).flatten).Nodup ∧
      (parse_by_heading doc).map contentImages =
        (parse_by_heading doc).map (fun s => s.images)) ∧
    (parse_by_heading exampleDocC5).map
      (fun s => (contentImages s).map (fun i => i.filename)) =
      [["image1.png", "image2.png"]] := by
  constructor
  · intro doc
    obtain ⟨h1, h2⟩ := parse_by_heading_images doc
    exact ⟨h1, List.map_congr_left h2⟩
  · decide

/-- C6: in heading-style mode the number of sections equals the number
of heading paragraphs found in the body, and any non-heading element
processed while no section is open changes no section content and opens
nothing (it is discarded). -/
theorem claim_C6 :
    (∀ doc : DocModel,
      (parse_by_heading doc).length = doc.body.countP isFoundHeading) ∧
    (∀ (doc : DocModel) (imgs : List RenderedImage) (st : HState) (e : BodyElem),
      st.current = none → isFoundHeading e = false →
      (processElement doc imgs st e).sections = st.sections ∧
      (processElement doc imgs st e).current = none) :=
  ⟨parse_by_heading_length, step_discard⟩

theorem claim_C6_witness :
    (processElement {} [] initialHState (.table [["x"]])).sections =
      initialHState.sections ∧
    (processElement {} [] initialHState (.table [["x"]])).current = none :=
  claim_C6.2 {} [] initialHState (.table [["x"]]) rfl rfl

/-- C7: table extraction trims every cell into a row-major grid; the
rendered HTML tags row 0's cells `th` and later rows' cells `td`; the
column count is row 0's cell count; a zero-row grid produces no table. -/
theorem claim_C7 (grid : List (List String)) :
    (processTableAndReturn grid = none ↔ grid = []) ∧
    (∀ r0 rs, grid = r0 :: rs →
      ∃ t, processTableAndReturn grid = some t ∧
        t.rows = grid.length ∧
        t.cols = r0.length ∧
        t.html = table_to_html (grid.map (fun r => r.map pyStrip)) ∧
        t.html.data =
          "<table>".data ++
            (rowBlock thOpen thClose ((r0.map pyStrip).map String.data) ++
              (rowsFlatTd (rs.map (fun r => (r.map pyStrip).map String.data)) ++
                "</table>".data))) := by
  constructor
  · cases grid <;> simp [processTableAndReturn]
  · intro r0 rs hg
    subst hg
    refine ⟨_, rfl, by simp [processTableAndReturn], by simp [processTableAndReturn], rfl, ?_⟩
    show (table_to_html ((r0.map pyStrip) :: rs.map (fun r => r.map pyStrip))).data = _
    rw [table_to_html_data]
    simp [List.map_map, Function.comp_def]

theorem claim_C7_witness :
    (processTableAndReturn ([] : List (List String)) = none) ∧
    ∃ t, processTableAndReturn [[" a ", "b"], ["c"]] = some t ∧
      t.rows = 2 ∧ t.cols = 2 := by
  refine ⟨(claim_C7 []).1.mpr rfl, ?_⟩
  obtain ⟨t, h1, h2, h3, _, _⟩ :=
    (claim_C7 [[" a ", "b"], ["c"]]).2 [" a ", "b"] [["c"]] rfl
  exact ⟨t, h1, by rw [h2]; rfl, by rw [h3]; rfl⟩

/-- C8 (as stated, refuted): extraction does not recover every non-empty
rectangular grid, because cells are not escaped; the 1-by-1 grid whose
cell is "a</th><th>b" renders to the same HTML as [["a", "b"]]. -/
theorem claim_C8_counterexample :
    ([["a</th><th>b"]] : List (List String)) ≠ [] ∧
    (∀ r ∈ ([["a</th><th>b"]] : List (List String)),
      r.length = (([["a</th><th>b"]] : List (List String)).headD []).length) ∧
    tableFromHtml (table_to_html [["a</th><th>b"]]) ≠ [["a</th><th>b"]] ∧
    table_to_html [["a</th><th>b"]] = table_to_html [["a", "b"]] :=
  ⟨by decide, by decide, by decide, by decide⟩

/-- C8 (amended): for every non-empty rectangular grid whose cells
contain no markup character '<', extracting the cell texts back out of
the HTML produced by `table_to_html` recovers exactly the grid. -/
theorem claim_C8 (g : List (List String)) (hne : g ≠ [])
    (hrect : ∀ r ∈ g, r.length = (g.headD []).length)
    (hclean : ∀ r ∈ g, ∀ cell ∈ r, '<' ∉ cell.data) :
    tableFromHtml (table_to_html g) = g :=
  tableFromHtml_table_to_html g hne hclean

theorem claim_C8_witness :
    tableFromHtml (table_to_html [["a", "b"], ["c", "d"]]) =
      [["a", "b"], ["c", "d"]] :=
  claim_C8 [["a", "b"], ["c", "d"]] (by decide) (by decide) (by decide)

/-- C9: `add_heading` stores `attrs.level = min(level, 6)` in the block,
so `render_html` emits at most an `<h6>` tag, although the section tree
can produce heading levels up to `max_heading_level = 9`. -/
theorem claim_C9 (blocks : List JsonV) (text : String) (level : Nat) :
    ∃ hb, addHeading blocks text level = blocks ++ [hb] ∧
      jget hb "attrs" = some (.obj [("level", .num (Int.ofNat (min level 6)))]) ∧
      min level 6 ≤ 6 ∧ max_heading_level = 9 ∧
      renderHtml (addHeading blocks text level) =
        renderHtml blocks ++ ("<h" ++ natStr (min level 6) ++ ">" ++ text ++
          "</h" ++ natStr (min level 6) ++ ">") := by
  refine ⟨.obj [("type", .str "heading"),
      ("attrs", .obj [("level", .num (Int.ofNat (min level 6)))]),
      ("content", .arr (if text = "" then []
        else [.obj [("type", .str "text"), ("text", .str text)]]))],
    rfl, rfl, Nat.min_le_right _ _, rfl, ?_⟩
  rw [show addHeading blocks text level = blocks ++
      [JsonV.obj [("type", .str "heading"),
        ("attrs", .obj [("level", .num (Int.ofNat (min level 6)))]),
        ("content", .arr (if text = "" then []
          else [.obj [("type", .str "text"), ("text", .str text)]]))]] from rfl]
  rw [renderHtml_append_single, renderBlock_heading_block]

/-- C10: a paragraph with blank trimmed text and no drawing is skipped
entirely (the state is unchanged); within an open section, empty text
leaves the section and list state untouched, only a non-list paragraph
with non-empty text resets the list state, a list item leaves the
counters non-empty, and numbering therefore continues across blank
paragraphs. -/
theorem claim_C10 :
    (∀ (doc : DocModel) (imgs : List RenderedImage) (st : HState) (p : Para),
      pyStrip p.text = "" → p.hasDrawing = false →
      processElement doc imgs st (.para p) = st) ∧
    (∀ (ls : ListState) (li : Option ListInfo) (sec : ParsedSection),
      updateSectionContent ls "" li sec = (sec, ls)) ∧
    (∀ (ls : ListState) (text : String) (sec : ParsedSection), text ≠ "" →
      (updateSectionContent ls text none sec).2 = ({} : ListState)) ∧
    (∀ (ls : ListState) (text : String) (info : ListInfo) (sec : ParsedSection),
      text ≠ "" → (updateSectionContent ls text (some info) sec).2.counters ≠ []) ∧
    (parse_by_heading exampleDocC10).map (fun s => s.marked_paragraphs) =
      [["<1> a", "<2> b"]] :=
  ⟨processElement_skip, updateSectionContent_empty, updateSectionContent_reset,
   updateSectionContent_list_counters, by decide⟩

theorem claim_C10_witness :
    processElement {} [] initialHState (.para { text := "  " }) = initialHState ∧
    (updateSectionContent {} "x" none {}).2 = ({} : ListState) :=
  ⟨claim_C10.1 {} [] initialHState { text := "  " } (by decide) rfl,
   claim_C10.2.2.1 {} "x" {} (by decide)⟩

end WordAnalysis

namespace WordAnalysis

/-! ## Heading-mode number paths are duplicate-free

Each heading advance strictly increases the per-level counter vector in
the (prefix-respecting) lexicographic order, and the dot-joined decimal
rendering of counter vectors is injective, so no two sections of a
heading-style parse share a number path.
-/

theorem natDigits_ne_nil (n : Nat) : natDigits n ≠ [] := by
  rw [natDigits_def]
  by_cases h : n < 10 <;> simp [h]

theorem natStr_ne_empty (n : Nat) : natStr n ≠ "" := by
  intro h
  have hd := congrArg String.data h
  simp only [natStr] at hd
  exact natDigits_ne_nil n (by simpa using hd)

theorem dot_not_mem_natStr (n : Nat) : '.' ∉ (natStr n).data := by
  simp only [natStr]
  intro hmem
  obtain ⟨d, hd, hdc⟩ := List.mem_map.mp hmem
  have hlt := natDigits_lt_ten n d hd
  have htn := congrArg Char.toNat hdc
  rw [digitCh_toNat d hlt] at htn
  have h46 : ('.').toNat = 46 := rfl
  omega

theorem dotSplit_inj : ∀ (a b r s : List Char), '.' ∉ a → '.' ∉ b →
    a ++ '.' :: r = b ++ '.' :: s → a = b ∧ r = s := by
  intro a
  induction a with
  | nil =>
    intro b r s _ hb h
    cases b with
    | nil => simpa using h
    | cons c bt =>
      simp only [List.nil_append, List.cons_append, List.cons.injEq] at h
      exact absurd (by rw [← h.1]; exact List.mem_cons_self _ _) hb
  | cons x at' ih =>
    intro b r s ha hb h
    cases b with
    | nil =>
      simp only [List.cons_append, List.nil_append, List.cons.injEq] at h
      exact absurd (by rw [h.1]; exact List.mem_cons_self _ _) ha
    | cons y bt =>
      simp only [List.cons_append, List.cons.injEq] at h
      obtain ⟨hxy, ht⟩ := h
      obtain ⟨h1, h2⟩ := ih bt r s
        (fun hm => ha (List.mem_cons_of_mem _ hm))
        (fun hm => hb (List.mem_cons_of_mem _ hm)) ht
      exact ⟨by rw [hxy, h1], h2⟩

theorem append_dot_data (y J : String) :
    (y ++ "." ++ J).data = y.data ++ '.' :: J.data := by
  simp [String.data_append]

theorem joinSep_dot_inj : ∀ (xs ys : List String),
    (∀ x ∈ xs, x ≠ "" ∧ '.' ∉ x.data) → (∀ y ∈ ys, y ≠ "" ∧ '.' ∉ y.data) →
    joinSep "." xs = joinSep "." ys → xs = ys := by
  intro xs
  induction xs with
  | nil =>
    intro ys _ hys h
    cases ys with
    | nil => rfl
    | cons y yt =>
      exfalso
      cases yt with
      | nil =>
        exact (hys y (by simp)).1 h.symm
      | cons y2 t =>
        have hd := congrArg String.data h
        rw [show joinSep "." ([] : List String) = "" from rfl,
            show joinSep "." (y :: y2 :: t) = y ++ "." ++ joinSep "." (y2 :: t) from rfl,
            append_dot_data] at hd
        have : y.data = [] := by
          cases hy : y.data with
          | nil => rfl
          | cons c ct => rw [hy] at hd; simp at hd
        exact (hys y (by simp)).1 (String.ext this)
  | cons x xt ih =>
    intro ys hxs hys h
    cases ys with
    | nil =>
      exfalso
      cases xt with
      | nil => exact (hxs x (by simp)).1 h
      | cons x2 t =>
        have hd := congrArg String.data h
        rw [show joinSep "." (x :: x2 :: t) = x ++ "." ++ joinSep "." (x2 :: t) from rfl,
            append_dot_data, show joinSep "." ([] : List String) = "" from rfl] at hd
        have : x.data = [] := by
          cases hy : x.data with
          | nil => rfl
          | cons c ct => rw [hy] at hd; simp at hd
        exact (hxs x (by simp)).1 (String.ext this)
    | cons y yt =>
      cases xt with
      | nil =>
        cases yt with
        | nil =>
          rw [show joinSep "." [x] = x from rfl, show joinSep "." [y] = y from rfl] at h
          rw [h]
        | cons y2 t =>
          exfalso
          have hd := congrArg String.data h
          rw [show joinSep "." [x] = x from rfl,
              show joinSep "." (y :: y2 :: t) = y ++ "." ++ joinSep "." (y2 :: t) from rfl,
              append_dot_data] at hd
          have hdot : '.' ∈ x.data := by
            rw [hd]
            exact List.mem_append.mpr (Or.inr (List.mem_cons_self _ _))
          exact (hxs x (by simp)).2 hdot
      | cons x2 t =>
        cases yt with
        | nil =>
          exfalso
          have hd := congrArg String.data h
          rw [show joinSep "." (x :: x2 :: t) = x ++ "." ++ joinSep "." (x2 :: t) from rfl,
              append_dot_data, show joinSep "." [y] = y from rfl] at hd
          have hdot : '.' ∈ y.data := by
            rw [← hd]
            exact List.mem_append.mpr (Or.inr (List.mem_cons_self _ _))
          exact (hys y (by simp)).2 hdot
        | cons y2 s =>
          have hd := congrArg String.data h
          rw [show joinSep "." (x :: x2 :: t) = x ++ "." ++ joinSep "." (x2 :: t) from rfl,
              show joinSep "." (y :: y2 :: s) = y ++ "." ++ joinSep "." (y2 :: s) from rfl,
              append_dot_data, append_dot_data] at hd
          obtain ⟨h1, h2⟩ := dotSplit_inj x.data y.data _ _
            (hxs x (by simp)).2 (hys y (by simp)).2 hd
          have hxy : x = y := String.ext h1
          have hrest : x2 :: t = y2 :: s := by
            apply ih (y2 :: s)
              (fun a ha => hxs a (List.mem_cons_of_mem _ ha))
              (fun a ha => hys a (List.mem_cons_of_mem _ ha))
            exact String.ext h2
          rw [hxy, hrest]

theorem digit_list_inj_of_map {v w : List Nat}
    (h : v.map natStr = w.map natStr) : v = w := by
  induction v generalizing w with
  | nil => cases w <;> simp_all
  | cons a t ih =>
    cases w with
    | nil => simp_all
    | cons b s =>
      simp only [List.map_cons, List.cons.injEq] at h
      exact by rw [natStr_injective h.1, ih h.2]

/-- The dot-joined decimal rendering of a counter vector. -/
def pathOf (v : List Nat) : String := joinSep "." (v.map natStr)

theorem pathOf_inj (v w : List Nat) (h : pathOf v = pathOf w) : v = w := by
  have hmap := joinSep_dot_inj (v.map natStr) (w.map natStr)
    (fun x hx => by
      obtain ⟨d, _, rfl⟩ := List.mem_map.mp hx
      exact ⟨natStr_ne_empty d, dot_not_mem_natStr d⟩)
    (fun x hx => by
      obtain ⟨d, _, rfl⟩ := List.mem_map.mp hx
      exact ⟨natStr_ne_empty d, dot_not_mem_natStr d⟩) h
  exact digit_list_inj_of_map hmap

end WordAnalysis

namespace WordAnalysis

/-- Counter vector at levels `1..L`. -/
def vecOf (c : Nat → Nat) (L : Nat) : List Nat := (List.range' 1 L).map c

/-- The counter update performed by the heading branch: increment the
fired level, zero the strictly deeper levels up to `max_heading_level`. -/
def bump (c : Nat → Nat) (hl : Nat) : Nat → Nat := fun l =>
  if l = hl then c hl + 1
  else if hl < l ∧ l < max_heading_level + 1 then 0
  else c l

theorem bump_self (c : Nat → Nat) (hl : Nat) : bump c hl hl = c hl + 1 := by
  simp [bump]

theorem bump_lt (c : Nat → Nat) (hl l : Nat) (h : l < hl) : bump c hl l = c l := by
  have h1 : ¬(l = hl) := by omega
  have h2 : ¬(hl < l ∧ l < max_heading_level + 1) := fun hc => absurd hc.1 (by omega)
  simp [bump, h1, h2]

theorem replayHeadings_cons (c : Nat → Nat) (ctx : List (String × String))
    (hl : Nat) (rest : List Nat) :
    replayHeadings c ctx (hl :: rest) =
      (pathOf (vecOf (bump c hl) hl),
       if 1 < hl then ctx.lookup (getHeadingLabel (hl - 1)) else none) ::
      replayHeadings (bump c hl)
        ((List.range' (hl + 1) (max_heading_level - hl)).foldl
          (fun m l => m.filter (fun kv => kv.1 ≠ getHeadingLabel l))
          (setA ctx (getHeadingLabel hl) (pathOf (vecOf (bump c hl) hl)))) rest := by
  have h1 : pathOf (vecOf (bump c hl) hl) =
      joinSep "." ((List.range' 1 hl).map (fun l => natStr (bump c hl l))) := by
    rw [pathOf, vecOf, List.map_map]
    rfl
  rw [h1]
  rfl

theorem lex_irrefl (v : List Nat) : ¬ List.Lex (· < ·) v v := by
  induction v with
  | nil => intro h; cases h
  | cons a t ih =>
    intro h
    cases h with
    | cons h1 => exact ih h1
    | rel h1 => exact Nat.lt_irrefl a h1

theorem lex_trans {u v w : List Nat} (h1 : List.Lex (· < ·) u v)
    (h2 : List.Lex (· < ·) v w) : List.Lex (· < ·) u w :=
  IsTrans.trans u v w h1 h2

theorem lex_prefix (v w : List Nat) (h : w ≠ []) : List.Lex (· < ·) v (v ++ w) := by
  induction v with
  | nil =>
    cases w with
    | nil => exact absurd rfl h
    | cons a t => exact List.Lex.nil
  | cons x xt ih => exact List.Lex.cons ih

theorem lex_middle (P : List Nat) (a b : Nat) (t s : List Nat) (h : a < b) :
    List.Lex (· < ·) (P ++ a :: t) (P ++ b :: s) := by
  induction P with
  | nil => exact List.Lex.rel h
  | cons x xt ih => exact List.Lex.cons ih

theorem range'_one_split (a b : Nat) (h : a ≤ b) :
    List.range' 1 b = List.range' 1 a ++ List.range' (1 + a) (b - a) := by
  have hr := List.range'_append 1 a (b - a) 1
  rw [Nat.one_mul, Nat.sub_add_cancel h] at hr
  exact hr.symm

theorem vecOf_bump_gt (c : Nat → Nat) (L hl : Nat) (h : L < hl) :
    vecOf (bump c hl) hl =
      vecOf c L ++ (List.range' (1 + L) (hl - L)).map (bump c hl) := by
  rw [vecOf, vecOf, range'_one_split L hl (Nat.le_of_lt h), List.map_append]
  congr 1
  apply List.map_congr_left
  intro l hm
  rw [List.mem_range'_1] at hm
  exact bump_lt c hl l (by omega)

theorem vecOf_split_at (c : Nat → Nat) (hl L : Nat) (h1 : 1 ≤ hl) (h2 : hl ≤ L) :
    vecOf c L = (List.range' 1 (hl - 1)).map c ++
      c hl :: (List.range' (hl + 1) (L - hl)).map c := by
  rw [vecOf, range'_one_split (hl - 1) L (by omega), List.map_append]
  congr 1
  rw [show 1 + (hl - 1) = hl from by omega,
      show L - (hl - 1) = (L - hl) + 1 from by omega, List.range'_succ]
  rfl

theorem vecOf_bump_le (c : Nat → Nat) (hl : Nat) (h1 : 1 ≤ hl) :
    vecOf (bump c hl) hl = (List.range' 1 (hl - 1)).map c ++ [c hl + 1] := by
  have hr : List.range' 1 hl = List.range' 1 (hl - 1) ++ [hl] := by
    have hc := @List.range'_concat 1 1 (hl - 1)
    rw [Nat.one_mul, show (1 : Nat) + (hl - 1) = hl from by omega,
        show hl - 1 + 1 = hl from by omega] at hc
    exact hc
  rw [vecOf, hr, List.map_append]
  congr 1
  · apply List.map_congr_left
    intro l hm
    rw [List.mem_range'_1] at hm
    exact bump_lt c hl l (by omega)
  · simp [bump_self]

theorem vec_lex_bump (c : Nat → Nat) (L hl : Nat) (hL : 1 ≤ hl) :
    List.Lex (· < ·) (vecOf c L) (vecOf (bump c hl) hl) := by
  by_cases h : L < hl
  · rw [vecOf_bump_gt c L hl h]
    apply lex_prefix
    intro hnil
    have hlen := congrArg List.length hnil
    simp only [List.length_map, List.length_range', List.length_nil] at hlen
    omega
  · have h2 : hl ≤ L := by omega
    rw [vecOf_split_at c hl L hL h2, vecOf_bump_le c hl hL]
    exact lex_middle _ (c hl) (c hl + 1) _ [] (Nat.lt_succ_self _)

theorem replay_future_gt :
    ∀ (levels : List Nat) (c : Nat → Nat) (ctx : List (String × String)) (L : Nat),
    (∀ l ∈ levels, 1 ≤ l) →
    ∀ q ∈ replayHeadings c ctx levels,
      ∃ w, q.1 = pathOf w ∧ List.Lex (· < ·) (vecOf c L) w := by
  intro levels
  induction levels with
  | nil =>
    intro c ctx L _ q hq
    simp [replayHeadings] at hq
  | cons hl rest ih =>
    intro c ctx L hb q hq
    rw [replayHeadings_cons] at hq
    rcases List.mem_cons.mp hq with hq | hq
    · exact ⟨vecOf (bump c hl) hl, by rw [hq],
        vec_lex_bump c L hl (hb hl (by simp))⟩
    · obtain ⟨w, hw1, hw2⟩ := ih (bump c hl) _ hl
        (fun l hm => hb l (List.mem_cons_of_mem _ hm)) q hq
      exact ⟨w, hw1, lex_trans (vec_lex_bump c L hl (hb hl (by simp))) hw2⟩

theorem replay_paths_nodup :
    ∀ (levels : List Nat) (c : Nat → Nat) (ctx : List (String × String)),
    (∀ l ∈ levels, 1 ≤ l) →
    ((replayHeadings c ctx levels).map Prod.fst).Nodup := by
  intro levels
  induction levels with
  | nil =>
    intro c ctx _
    simp [replayHeadings]
  | cons hl rest ih =>
    intro c ctx hb
    rw [replayHeadings_cons, List.map_cons, List.nodup_cons]
    constructor
    · intro hmem
      obtain ⟨q, hq, hq1⟩ := List.mem_map.mp hmem
      obtain ⟨w, hw1, hw2⟩ := replay_future_gt rest (bump c hl) _ hl
        (fun l hm => hb l (List.mem_cons_of_mem _ hm)) q hq
      have hvw : vecOf (bump c hl) hl = w :=
        pathOf_inj _ _ (hq1.symm.trans hw1)
      rw [hvw] at hw2
      exact lex_irrefl w hw2
    · exact ih (bump c hl) _ (fun l hm => hb l (List.mem_cons_of_mem _ hm))

theorem headingLevels_ge_one (body : List BodyElem) :
    ∀ l ∈ headingLevels body, 1 ≤ l := by
  intro l hml
  rw [headingLevels, List.mem_filterMap] at hml
  obtain ⟨e, _, he⟩ := hml
  cases e with
  | para p =>
    dsimp only at he
    by_cases hskip : pyStrip p.text = "" ∧ ¬p.hasDrawing
    · rw [if_pos hskip] at he
      cases he
    · rw [if_neg hskip] at he
      cases hstyle : p.style with
      | none =>
        rw [hstyle] at he
        simp [getHeadingLevel] at he
      | some name =>
        rw [hstyle] at he
        simp only [getHeadingLevel] at he
        have hm := List.mem_of_find?_eq_some he
        rw [List.mem_range'_1] at hm
        exact hm.1
  | table t => cases he

theorem parse_by_heading_paths_nodup (doc : DocModel) :
    ((parse_by_heading doc).map (fun s => s.number_path)).Nodup := by
  have hpp := parse_pp_general doc (extractAllImages doc.rels) doc.body initialHState
  have h1 : (parse_by_heading doc).map secPP =
      replayHeadings (fun _ => 0) [] (headingLevels doc.body) := by
    rw [show (parse_by_heading doc).map secPP =
        initialHState.sections.map secPP ++ curPP initialHState ++
        replayHeadings initialHState.counters (ctxPaths initialHState.context)
          (headingLevels doc.body) from hpp]
    rfl
  have h2 : (parse_by_heading doc).map (fun s => s.number_path) =
      (replayHeadings (fun _ => 0) [] (headingLevels doc.body)).map Prod.fst := by
    rw [← h1, List.map_map]
    rfl
  rw [h2]
  exact replay_paths_nodup (headingLevels doc.body) (fun _ => 0) []
    (headingLevels_ge_one doc.body)

end WordAnalysis

namespace WordAnalysis

/-- C2: no two produced sections share a number path. In heading mode the
paths of `parse_by_heading` are pairwise distinct for every document; the
paths emitted by `get_number_info` over any paragraph stream are pairwise
distinct, and the deduplication loop (`uniquify`) never returns an
already-used path. -/
theorem claim_C2 :
    (∀ (doc : DocModel),
      ((parse_by_heading doc).map (fun s => s.number_path)).Nodup) ∧
    (∀ (defs : NumberingDefs) (inputs : List (Option (Option Nat × Option Nat))),
      (runExtractor defs ExtractorState.init inputs).Nodup) ∧
    (∀ (base : String) (used : List String), uniquify base used ∉ used) :=
  ⟨parse_by_heading_paths_nodup,
   fun defs inputs => (runExtractor_fresh defs inputs ExtractorState.init).1,
   uniquify_not_mem⟩

end WordAnalysis
